import Mathlib

/-!
# Verification of the `arbor` incremental commit-graph engine

Shallow embedding of the core of the `arbor` repository
(`internal/gitgraph/provider.go` and `internal/tui/model.go`):

* the priority-ordered frontier traversal (`CommitProvider`, `commitHeap`),
* the column-layout algorithm (`graphState.Render`),
* the materialized sequence growth (`Ensure` / `loadNext`),
* the viewport/filter controller (`applyFilter`, `refreshFilter`,
  `ensureVisible`, `moveCursor`, `normalizePosition`).

Go hashes (`plumbing.Hash`) are modelled as `String` (the heap tie-break
compares `Hash.String()` lexicographically, which is the lexicographic order
on the hex string, so `String` with its linear order is a faithful model).
`time.Time` values are modelled as `Int` (`Equal` = `=`, `After` = `>`).
The external `container/heap` package is modelled by its documented
contract: `heap.Pop` removes a `Less`-minimal element of the multiset of
pushed elements.  The external `go-git` object store is modelled as a
lookup function `String → Option Commit` (`none` = failed lookup).
-/

/-- A commit as read from the history source: hash, ordered parent hashes,
author name, full message and committer timestamp
(`object.Commit` fields used by the engine). -/
structure Commit where
  hash : String
  parents : List String
  author : String
  message : String
  whenT : Int
deriving DecidableEq, Repr

/-- `GraphCell` from `provider.go`: one glyph of a rendered row. -/
structure GraphCell where
  ch : String
  color : Nat
deriving DecidableEq, Repr

/-- `CommitInfo` from `provider.go`. -/
structure CommitInfo where
  hash : String
  shortHash : String
  subject : String
  author : String
  whenT : Int
  graph : List GraphCell
  commit : Commit
deriving DecidableEq, Repr

/-- `indexOfHash` from `provider.go`, with the running index made explicit
(the Go `for i, h := range list` loop). Returns `-1` when absent. -/
def indexOfHashAux : List String → String → Int → Int
  | [], _, _ => -1
  | h :: t, target, i => if h = target then i else indexOfHashAux t target (i + 1)

/-- `indexOfHash(list, target)` from `provider.go`. -/
def indexOfHash (list : List String) (target : String) : Int :=
  indexOfHashAux list target 0

/-- The loop body of `dedupeHashes` from `provider.go`; `seen` is the set of
hashes already copied to the output. -/
def dedupeAux : List String → List String → List String
  | [], _ => []
  | h :: t, seen => if h ∈ seen then dedupeAux t seen else h :: dedupeAux t (h :: seen)

/-- `dedupeHashes` from `provider.go`: keep the first occurrence of each
hash, preserving relative order. -/
def dedupeHashes (list : List String) : List String :=
  dedupeAux list []

/-- `cells[i].Ch = s` with the in-range check of the Go code
(out-of-range writes leave the slice unchanged; `Render` always guards
them by `pos < len(cells)`). -/
def setCellCh (cells : List GraphCell) (i : Nat) (s : String) : List GraphCell :=
  match cells.get? i with
  | some cell => cells.set i { cell with ch := s }
  | none => cells

/-- The `for i := 1; i < len(parents); i++` loop of `graphState.Render`
that marks the branch-opening glyphs: positions `idx+i` for `i ∈ [i₀, k)`. -/
def markBranches (cells : List GraphCell) (idx : Nat) (i : Nat) (k : Nat) : List GraphCell :=
  if i < k then
    markBranches (if idx + i < cells.length then setCellCh cells (idx + i) "\\" else cells)
      idx (i + 1) k
  else cells
termination_by k - i

/-- The `for i := 1; i < len(parents); i++` loop of `graphState.Render`
that splices the extra parents into the column list at `idx+i`. `i` starts
at 1 and `ps` holds `parents[1:]`. -/
def insertParents (cols : List String) (idx : Nat) (ps : List String) (i : Nat) : List String :=
  match ps with
  | [] => cols
  | parent :: rest => insertParents (cols.insertIdx (idx + i) parent) idx rest (i + 1)

/-- The column-state update of `graphState.Render` (step 4 of the layout
algorithm), before the final dedupe: remove the column of a root commit,
otherwise replace it by the first parent and splice in the extra parents. -/
def updateColumns (cols : List String) (idx : Nat) (parents : List String) : List String :=
  match parents with
  | [] => cols.eraseIdx idx
  | p0 :: rest => insertParents (cols.set idx p0) idx rest 1

/-- The column state produced by `graphState.Render` before the final
`dedupeHashes` call: find (or prepend) the commit's column, then update. -/
def renderPreCols (columns : List String) (c : Commit) : List String :=
  let r := indexOfHash columns c.hash
  let cols := if r = -1 then c.hash :: columns else columns
  let idx : Nat := if r = -1 then 0 else r.toNat
  updateColumns cols idx c.parents

/-- `graphState.Render` from `provider.go`: returns the rendered row and
the new column state (the Go method mutates `g.columns`). -/
def render (columns : List String) (c : Commit) : List GraphCell × List String :=
  let r := indexOfHash columns c.hash
  let cols := if r = -1 then c.hash :: columns else columns
  let idx : Nat := if r = -1 then 0 else r.toNat
  let parents := c.parents
  let preLen := cols.length
  let postLen := if parents.length > 1 then preLen + (parents.length - 1) else preLen
  let cells := (List.range postLen).map (fun i => ({ ch := "|", color := i } : GraphCell))
  let cells := if idx < cells.length then setCellCh cells idx "*" else cells
  let cells := if parents.length > 1 then markBranches cells idx 1 parents.length else cells
  (cells, dedupeHashes (renderPreCols columns c))

/-- Number of branch-opening glyphs (`"\\"`) in a rendered row. -/
def countBranchGlyphs (cells : List GraphCell) : Nat :=
  cells.countP (fun cell => cell.ch == "\\")

/-- `commitHeap.Less` from `provider.go`: `i` sorts before `j` when its
committer time is strictly later, with the lexicographically greater hash
string winning ties. -/
def commitLess (a b : Commit) : Bool :=
  if a.whenT = b.whenT then decide (b.hash < a.hash) else decide (b.whenT < a.whenT)

/-- The `Less`-minimal element of `c :: l` (first-wins on incomparable
duplicates), i.e. the element `container/heap` hands back on `Pop`. -/
def heapMin (c : Commit) (l : List Commit) : Commit :=
  match l with
  | [] => c
  | d :: rest => heapMin (if commitLess d c then d else c) rest

/-- Remove the first occurrence of `m`. -/
def removeFirst : List Commit → Commit → List Commit
  | [], _ => []
  | c :: rest, m => if c = m then rest else c :: removeFirst rest m

/-- `heap.Pop` on the frontier, modelled by the documented `container/heap`
contract: remove and return a `Less`-minimal element (here: the commit
with the latest timestamp, greatest hash on ties).  `none` on the empty
heap (where the Go call would panic; the engine always guards it by
`HasMore`). -/
def heapPopMin (l : List Commit) : Option (Commit × List Commit) :=
  match l with
  | [] => none
  | c :: rest =>
    let m := heapMin c rest
    some (m, removeFirst (c :: rest) m)

/-- Repeatedly popping the frontier until empty; `fuel` is a structural
bound (instantiated with `l.length`, which is exact since every pop
removes one element). -/
def popOrderFuel : Nat → List Commit → List Commit
  | 0, _ => []
  | fuel + 1, l =>
    match heapPopMin l with
    | none => []
    | some (m, rest) => m :: popOrderFuel fuel rest

/-- The order in which a frontier with contents `l` is emitted when popped
to exhaustion. -/
def popOrder (l : List Commit) : List Commit :=
  popOrderFuel l.length l

/-- `CommitProvider` from `provider.go`.  The `repo` field models the
external object store (`repo.CommitObject`); `columns` is the `graphState`;
`commits` is the materialized sequence `Commits`. -/
structure Provider where
  repo : String → Option Commit
  limit : Int
  seen : List String
  heap : List Commit
  columns : List String
  commits : List CommitInfo
  complete : Bool

/-- `CommitProvider.HasMore` from `provider.go`. -/
def HasMore (p : Provider) : Bool :=
  if p.limit > 0 ∧ (p.commits.length : Int) ≥ p.limit then false
  else decide (p.heap.length > 0)

/-- Go's `strings.TrimSpace` modelled over the character list: drop
whitespace from both ends. -/
def trimSpace (s : String) : String :=
  String.mk (((s.toList.dropWhile Char.isWhitespace).reverse.dropWhile Char.isWhitespace).reverse)

/-- Go's `strings.ToLower` modelled over the character list. -/
def strLower (s : String) : String :=
  String.mk (s.toList.map Char.toLower)

/-- `firstLine` from `provider.go`: `strings.SplitN(message, "\n", 2)[0]`
is the text before the first newline; then `strings.TrimSpace`. -/
def firstLine (message : String) : String :=
  trimSpace (String.mk (message.toList.takeWhile (fun ch => ch ≠ '\n')))

/-- `buildCommitInfo` from `provider.go`; also returns the new column state
(the Go function mutates the graph state through a pointer).
`ShortHash` is `Hash.String()[:7]`. -/
def buildCommitInfo (commit : Commit) (columns : List String) : CommitInfo × List String :=
  let subject := firstLine commit.message
  let res := render columns commit
  ({ hash := commit.hash
     shortHash := String.mk (commit.hash.toList.take 7)
     subject := subject
     author := commit.author
     whenT := commit.whenT
     graph := res.1
     commit := commit }, res.2)

/-- The parent-expansion loop shared by `NewCommitProvider` (over the tips)
and `loadNext` (over the popped commit's parents): skip hashes already in
the seen set, silently skip failed lookups, otherwise mark seen and push. -/
def pushParents (repo : String → Option Commit) :
    List String → List String → List Commit → List String × List Commit
  | [], seen, heap => (seen, heap)
  | parent :: rest, seen, heap =>
    if parent ∈ seen then pushParents repo rest seen heap
    else
      match repo parent with
      | none => pushParents repo rest seen heap
      | some pc => pushParents repo rest (parent :: seen) (pc :: heap)

/-- `CommitProvider.loadNext` from `provider.go`.  `none` models the panic
of `heap.Pop` on an empty frontier (never reached: every call is guarded by
`HasMore`).  The `Option String` component is the Go `error` return value,
which the source returns as `nil` on every path. -/
def loadNext (p : Provider) : Option (Provider × Option String) :=
  match heapPopMin p.heap with
  | none => none
  | some (commit, rest) =>
    let pr := buildCommitInfo commit p.columns
    let p1 : Provider :=
      { p with heap := rest, columns := pr.2, commits := p.commits ++ [pr.1] }
    if p1.limit > 0 ∧ (p1.commits.length : Int) ≥ p1.limit then some (p1, none)
    else
      let sh := pushParents p.repo commit.parents p1.seen p1.heap
      some ({ p1 with seen := sh.1, heap := sh.2 }, none)

/-- The `for len(p.Commits) <= index && p.HasMore()` loop of
`CommitProvider.Ensure`.  `fuel` is a structural bound on the number of
iterations; since every `loadNext` appends exactly one commit, the loop
runs at most `index + 1 - len(commits)` times, so `Ensure` below
instantiates the fuel with that exact bound and the semantics coincide
with the unbounded Go loop. -/
def ensureLoopFuel : Nat → Provider → Int → Provider × Option String
  | 0, p, _ => (p, none)
  | fuel + 1, p, index =>
    if (p.commits.length : Int) ≤ index ∧ HasMore p = true then
      match loadNext p with
      | some (p', some e) => (p', some e)
      | some (p', none) => ensureLoopFuel fuel p' index
      | none => (p, none)
    else (p, none)

/-- `CommitProvider.Ensure` from `provider.go`: no-op on a negative index,
otherwise keep loading until the sequence is long enough or the traversal
is exhausted, then update the `complete` flag.  Returns the provider state
and the Go `error` value. -/
def Ensure (p : Provider) (index : Int) : Provider × Option String :=
  if index < 0 then (p, none)
  else
    match ensureLoopFuel (index + 1 - p.commits.length).toNat p index with
    | (q, some e) => (q, some e)
    | (q, none) =>
      if q.heap.length = 0 ∧ (q.limit = 0 ∨ (q.commits.length : Int) < q.limit) then
        ({ q with complete := true }, none)
      else (q, none)

/-- `NewCommitProvider` from `provider.go`, with the tip enumeration
(`gatherTips`, an external-collaborator concern) supplied as an argument.
Fails (`none`, the Go `"no commits found"` error) when the tip list is
empty; otherwise seeds the seen set and the frontier from the tips with
the same skip-seen / skip-failed-lookup loop as the parent expansion. -/
def NewCommitProvider (repo : String → Option Commit) (limit : Int)
    (tips : List String) : Option Provider :=
  if tips.length = 0 then none
  else
    let sh := pushParents repo tips [] []
    some { repo := repo, limit := limit, seen := sh.1, heap := sh.2,
           columns := [], commits := [], complete := false }

/-- A sequence of `Ensure` calls (discarding the always-`nil` errors, as
the TUI does). -/
def ensureSeq (p : Provider) (idxs : List Int) : Provider :=
  idxs.foldl (fun q i => (Ensure q i).1) p

/-- The object-store contract of go-git: a successful `CommitObject(h)`
lookup returns a commit whose hash is `h`. -/
def RepoOK (repo : String → Option Commit) : Prop :=
  ∀ h c, repo h = some c → c.hash = h

/-- The provider invariant behind the dedup guarantee: every hash in the
frontier or in the materialized sequence is in the seen set, and no hash
occurs twice across the sequence and the frontier. -/
def ProvInv (p : Provider) : Prop :=
  (∀ c ∈ p.heap, c.hash ∈ p.seen) ∧
  (∀ h ∈ p.commits.map (fun i => i.hash), h ∈ p.seen) ∧
  (p.commits.map (fun i => i.hash) ++ p.heap.map (fun c => c.hash)).Nodup

/-! ## The TUI model (`internal/tui/model.go`) -/

/-- The fields of `tui.model` that the viewport/filter controller reads and
writes.  `chromeH` stands for `headerHeight + footerHeight + searchHeight`
as computed by `layoutHeights` from the externally rendered header/footer
(the claims under verification do not depend on its value). -/
structure TuiModel where
  provider : Provider
  width : Int
  height : Int
  chromeH : Int
  cursor : Int
  offset : Int
  filter : String
  filtered : List Nat
  filterScanned : Nat

/-- `clamp` from `model.go`. -/
def clamp (val minVal maxVal : Int) : Int :=
  if val < minVal then minVal
  else if val > maxVal then maxVal
  else val

/-- `max` from `model.go`. -/
def maxInt (a b : Int) : Int :=
  if a > b then a else b

/-- `model.listLength` from `model.go`. -/
def listLength (m : TuiModel) : Nat :=
  if m.filter ≠ "" then m.filtered.length else m.provider.commits.length

/-- `model.viewportHeight` from `model.go`: the terminal height minus the
chrome (header/footer/search) height, at least 1. -/
def viewportHeight (m : TuiModel) : Int :=
  if m.height - m.chromeH < 1 then 1 else m.height - m.chromeH

/-- One character list occurring inside another contiguously
(Go `strings.Contains(s, pat)`; the empty pattern matches). -/
def listHas : List Char → List Char → Bool
  | [], pat => pat.isEmpty
  | c :: t, pat => pat.isPrefixOf (c :: t) || listHas t pat

/-- `strings.Contains` modelled over character lists. -/
def strContainsSub (s pat : String) : Bool :=
  listHas s.toList pat.toList

/-- The match predicate of `model.refreshFilter`: case-insensitive
substring match of the (already lowercased) query against the subject or
the author. -/
def matchesFilter (filterLower : String) (c : CommitInfo) : Bool :=
  strContainsSub (strLower c.subject) filterLower ||
    strContainsSub (strLower c.author) filterLower

/-- Whether the materialized entry at index `i` matches the (lowercased)
query; `false` past the end of the sequence. -/
def matchAt (commits : List CommitInfo) (filterLower : String) (i : Nat) : Bool :=
  match commits.get? i with
  | some c => matchesFilter filterLower c
  | none => false

/-- The `for m.filterScanned < len(m.provider.Commits)` loop of
`model.refreshFilter`: test each unscanned entry, append matching indices,
advance the scan cursor. -/
def scanLoop (commits : List CommitInfo) (filterLower : String)
    (filtered : List Nat) (scanned : Nat) : List Nat × Nat :=
  if h : scanned < commits.length then
    scanLoop commits filterLower
      (if matchesFilter filterLower (commits.get ⟨scanned, h⟩) then filtered ++ [scanned]
       else filtered)
      (scanned + 1)
  else (filtered, scanned)
termination_by commits.length - scanned

/-- `model.refreshFilter` from `model.go`. -/
def refreshFilter (m : TuiModel) : TuiModel :=
  if m.filter = "" then m
  else
    let res := scanLoop m.provider.commits (strLower m.filter) m.filtered m.filterScanned
    { m with filtered := res.1, filterScanned := res.2 }

/-- `model.applyFilter` from `model.go`: trim the query, reset the filter
state and the cursor/offset, then (for a non-empty query) rescan. -/
def applyFilter (m : TuiModel) (query : String) : TuiModel :=
  let m1 : TuiModel :=
    { m with filter := trimSpace query, filtered := [], filterScanned := 0,
             cursor := 0, offset := 0 }
  if m1.filter = "" then m1 else refreshFilter m1

/-- The `for len(m.filtered) <= target && m.provider.HasMore()` loop of
`model.ensureVisible` in filtered mode.  `fuel` bounds the number of
iterations (the Go loop terminates because a real repository is finite;
every property proved below holds for every fuel). -/
def evLoop : Nat → TuiModel → Int → TuiModel
  | 0, m, _ => m
  | fuel + 1, m, target =>
    if (m.filtered.length : Int) ≤ target ∧ HasMore m.provider = true then
      let m1 := { m with provider := (Ensure m.provider (m.provider.commits.length : Int)).1 }
      evLoop fuel (refreshFilter m1) target
    else m

/-- `model.ensureVisible` from `model.go`. -/
def ensureVisible (fuel : Nat) (m : TuiModel) : TuiModel :=
  let buffer : Int := 5
  let viewport := viewportHeight m
  if viewport ≤ 0 then m
  else if m.filter = "" then
    { m with provider := (Ensure m.provider (m.offset + viewport + buffer)).1 }
  else evLoop fuel m (m.offset + viewport + buffer)

/-- `model.moveCursor` from `model.go`. -/
def moveCursor (fuel : Nat) (m : TuiModel) (delta : Int) : TuiModel :=
  if listLength m = 0 then m
  else
    let m1 := { m with cursor := clamp (m.cursor + delta) 0 ((listLength m : Int) - 1) }
    let m2 := if m1.cursor < m1.offset then { m1 with offset := m1.cursor } else m1
    let m3 :=
      if m2.cursor ≥ m2.offset + viewportHeight m2 then
        { m2 with offset := m2.cursor - viewportHeight m2 + 1 }
      else m2
    if delta > 0 then
      let m4 := ensureVisible fuel m3
      if m4.cursor ≥ (listLength m4 : Int) - 1 ∧ HasMore m4.provider = true then
        ensureVisible fuel m4
      else m4
    else m3

/-- `model.normalizePosition` from `model.go`. -/
def normalizePosition (m : TuiModel) : TuiModel :=
  let listLen : Int := (listLength m : Int)
  if listLen = 0 then { m with cursor := 0, offset := 0 }
  else
    let m1 := { m with cursor := clamp m.cursor 0 (listLen - 1) }
    let viewport := viewportHeight m1
    let maxOffset := maxInt 0 (listLen - viewport)
    let m2 := { m1 with offset := clamp m1.offset 0 maxOffset }
    let m3 := if m2.cursor < m2.offset then { m2 with offset := m2.cursor } else m2
    if m3.cursor ≥ m3.offset + viewport then
      { m3 with offset := m3.cursor - viewport + 1 }
    else m3

/-- The cursor/scroll window invariant of the viewport controller. -/
def PosInv (m : TuiModel) : Prop :=
  0 ≤ m.cursor ∧ m.cursor ≤ (listLength m : Int) - 1 ∧
    m.offset ≤ m.cursor ∧ m.cursor < m.offset + viewportHeight m

/-- The filter operations the controller performs: `applyFilter`, an
incremental rescan, or a visibility-driven load (`ensureVisible`). -/
inductive FilterOp where
  | applyQ (q : String)
  | rescan
  | visible (fuel : Nat)

/-- One controller step. -/
def stepOp (m : TuiModel) : FilterOp → TuiModel
  | .applyQ q => applyFilter m q
  | .rescan => refreshFilter m
  | .visible fuel => ensureVisible fuel m

/-- A sequence of controller steps. -/
def runOps (m : TuiModel) (ops : List FilterOp) : TuiModel :=
  ops.foldl stepOp m

/-- The filter-state invariant of the viewport/filter controller: the scan
cursor never passes the materialized length, and (for an active filter)
the filtered list is exactly the matching indices below the scan cursor,
in ascending order. -/
def FilterInv (m : TuiModel) : Prop :=
  m.filterScanned ≤ m.provider.commits.length ∧
  (m.filter ≠ "" → m.filtered = (List.range m.filterScanned).filter
      (matchAt m.provider.commits (strLower m.filter)))

/-- A history source with no objects (every lookup fails): the simplest
concrete instantiation of the external object store. -/
def emptyRepo : String → Option Commit := fun _ => none

/-- A two-commit linear history: `"a"` (child, newer) → `"b"` (root). -/
def chainRepo : String → Option Commit := fun h =>
  if h = "a" then some { hash := "a", parents := ["b"], author := "u", message := "s", whenT := 2 }
  else if h = "b" then
    some { hash := "b", parents := [], author := "u", message := "s", whenT := 1 }
  else none

/-- A fresh provider over the empty history source. -/
def emptyProvider : Provider :=
  { repo := emptyRepo, limit := 0, seen := [], heap := [], columns := [],
    commits := [], complete := false }

/-- A fresh provider over `chainRepo`, as built by
`NewCommitProvider chainRepo 0 ["a"]`. -/
def chainProvider : Provider :=
  { repo := chainRepo, limit := 0, seen := ["a"],
    heap := [{ hash := "a", parents := ["b"], author := "u", message := "s", whenT := 2 }],
    columns := [], commits := [], complete := false }

/-- A fresh provider over `chainRepo` with `limit = 1`. -/
def limitedProvider : Provider :=
  { repo := chainRepo, limit := 1, seen := ["a"],
    heap := [{ hash := "a", parents := ["b"], author := "u", message := "s", whenT := 2 }],
    columns := [], commits := [], complete := false }

/-- A sample rendered entry (subject "fix things"). -/
def sampleInfo : CommitInfo :=
  { hash := "a", shortHash := "a", subject := "fix things", author := "u", whenT := 1,
    graph := [{ ch := "*", color := 0 }],
    commit := { hash := "a", parents := [], author := "u", message := "fix things", whenT := 1 } }

/-- A fresh TUI model over the empty provider. -/
def emptyModel : TuiModel :=
  { provider := emptyProvider, width := 80, height := 24, chromeH := 3,
    cursor := 0, offset := 0, filter := "", filtered := [], filterScanned := 0 }

/-- A provider with three already-materialized entries. -/
def sampleProvider : Provider :=
  { repo := emptyRepo, limit := 0, seen := [], heap := [], columns := [],
    commits := [sampleInfo, sampleInfo, sampleInfo], complete := false }

/-- A TUI model whose provider has three materialized entries. -/
def sampleModel : TuiModel :=
  { provider := sampleProvider,
    width := 80, height := 24, chromeH := 3, cursor := 0, offset := 0,
    filter := "", filtered := [], filterScanned := 0 }

/-! ## Lemmas about `indexOfHash`, `dedupeHashes` and the column update -/

theorem indexOfHashAux_of_not_mem {l : List String} {t : String} (h : t ∉ l) (i : Int) :
    indexOfHashAux l t i = -1 := by
  induction l generalizing i with
  | nil => rfl
  | cons a l ih =>
    simp only [List.mem_cons, not_or] at h
    have ha : a ≠ t := fun hc => h.1 hc.symm
    simp only [indexOfHashAux, if_neg ha]
    exact ih h.2 (i + 1)

theorem indexOfHashAux_of_mem {l : List String} {t : String} (h : t ∈ l) (i : Int) :
    ∃ n : Nat, indexOfHashAux l t i = i + n ∧ n < l.length ∧ l.get? n = some t := by
  induction l generalizing i with
  | nil => simp at h
  | cons a l ih =>
    by_cases ha : a = t
    · exact ⟨0, by simp [indexOfHashAux, ha], by simp, by simp [ha]⟩
    · have ht : t ∈ l := by
        rcases List.mem_cons.mp h with h1 | h1
        · exact absurd h1.symm ha
        · exact h1
      obtain ⟨n, h1, h2, h3⟩ := ih ht (i + 1)
      exact ⟨n + 1, by simp [indexOfHashAux, ha, h1]; ring, by simpa using h2, by simpa using h3⟩

theorem indexOfHash_of_not_mem {l : List String} {t : String} (h : t ∉ l) :
    indexOfHash l t = -1 :=
  indexOfHashAux_of_not_mem h 0

theorem indexOfHash_of_mem {l : List String} {t : String} (h : t ∈ l) :
    indexOfHash l t ≠ -1 ∧ (indexOfHash l t).toNat < l.length ∧
      l.get? (indexOfHash l t).toNat = some t := by
  obtain ⟨n, h1, h2, h3⟩ := indexOfHashAux_of_mem h 0
  have hn : indexOfHash l t = (n : Int) := by simpa [indexOfHash] using h1
  refine ⟨by omega, ?_, ?_⟩
  · rw [hn]; simpa using h2
  · rw [hn]; simpa using h3

theorem dedupeAux_of_nodup : ∀ (l seen : List String), l.Nodup →
    (∀ x ∈ l, x ∉ seen) → dedupeAux l seen = l := by
  intro l
  induction l with
  | nil => intro seen _ _; rfl
  | cons a l ih =>
    intro seen hnd hs
    have hnd' := List.nodup_cons.mp hnd
    simp only [dedupeAux, if_neg (hs a (by simp))]
    congr 1
    refine ih (a :: seen) hnd'.2 ?_
    intro x hx
    simp only [List.mem_cons, not_or]
    exact ⟨fun hxa => hnd'.1 (hxa ▸ hx), hs x (by simp [hx])⟩

theorem dedupeHashes_of_nodup {l : List String} (h : l.Nodup) : dedupeHashes l = l :=
  dedupeAux_of_nodup l [] h (by simp)

theorem insertParents_length : ∀ (ps cols : List String) (idx i : Nat),
    idx + i ≤ cols.length →
    (insertParents cols idx ps i).length = cols.length + ps.length := by
  intro ps
  induction ps with
  | nil => intro cols idx i _; simp [insertParents]
  | cons p rest ih =>
    intro cols idx i hle
    have hlen : (cols.insertIdx (idx + i) p).length = cols.length + 1 :=
      List.length_insertIdx (idx + i) cols hle
    have h2 : idx + (i + 1) ≤ (cols.insertIdx (idx + i) p).length := by omega
    have h3 := ih (cols.insertIdx (idx + i) p) idx (i + 1) h2
    simp only [insertParents]
    rw [h3, hlen, List.length_cons]
    omega

/-! ## Counting branch glyphs -/

theorem length_setCellCh (cells : List GraphCell) (i : Nat) (s : String) :
    (setCellCh cells i s).length = cells.length := by
  unfold setCellCh
  cases h : cells.get? i <;> simp

theorem get?_setCellCh_ne {cells : List GraphCell} {i j : Nat} (s : String) (hne : j ≠ i) :
    (setCellCh cells i s).get? j = cells.get? j := by
  unfold setCellCh
  cases h : cells.get? i with
  | none => rfl
  | some cell => simp [List.get?_eq_getElem?, List.getElem?_set_ne (Ne.symm hne)]

theorem countP_set_cell (p : GraphCell → Bool) :
    ∀ (l : List GraphCell) (i : Nat) (cell v : GraphCell), l.get? i = some cell →
      (l.set i v).countP p + (if p cell then 1 else 0) =
        l.countP p + (if p v then 1 else 0) := by
  intro l
  induction l with
  | nil => intro i cell v h; simp at h
  | cons a t ih =>
    intro i cell v h
    cases i with
    | zero =>
      simp only [List.get?_cons_zero, Option.some_inj] at h
      subst h
      simp only [List.set_cons_zero, List.countP_cons]
      omega
    | succ n =>
      simp only [List.get?_cons_succ] at h
      simp only [List.set_cons_succ, List.countP_cons]
      have := ih n cell v h
      omega

theorem countP_setCellCh {cells : List GraphCell} {i : Nat} {cell : GraphCell} (s : String)
    (h : cells.get? i = some cell) :
    (setCellCh cells i s).countP (fun c => c.ch == "\\") + (if cell.ch == "\\" then 1 else 0) =
      cells.countP (fun c => c.ch == "\\") + (if s == "\\" then 1 else 0) := by
  unfold setCellCh
  rw [h]
  exact countP_set_cell _ cells i cell { cell with ch := s } h

theorem markBranches_countP (idx : Nat) :
    ∀ (d i : Nat) (k : Nat) (cells : List GraphCell), k - i = d →
      (∀ j, i ≤ j → j < k →
        ∃ cell, cells.get? (idx + j) = some cell ∧ cell.ch ≠ "\\") →
      (markBranches cells idx i k).countP (fun c => c.ch == "\\") =
        cells.countP (fun c => c.ch == "\\") + (k - i) := by
  intro d
  induction d with
  | zero =>
    intro i k cells hd _
    rw [markBranches]
    rw [if_neg (by omega)]
    omega
  | succ d ih =>
    intro i k cells hd hcur
    have hik : i < k := by omega
    obtain ⟨cell, hget, hch⟩ := hcur i le_rfl hik
    have hlt : idx + i < cells.length := (List.get?_eq_some.mp hget).1
    rw [markBranches, if_pos hik, if_pos hlt]
    have hcount := countP_setCellCh "\\" hget
    rw [if_neg (by simpa using hch), if_pos (by simp)] at hcount
    have hrec := ih (i + 1) k (setCellCh cells (idx + i) "\\") (by omega) ?_
    · rw [hrec]; omega
    · intro j hj1 hj2
      obtain ⟨cell', hget', hch'⟩ := hcur j (by omega) hj2
      exact ⟨cell', by rw [get?_setCellCh_ne _ (by omega)]; exact hget', hch'⟩

theorem render_idx_lt (columns : List String) (t : String) :
    (if indexOfHash columns t = -1 then 0 else (indexOfHash columns t).toNat) <
      (if indexOfHash columns t = -1 then t :: columns else columns).length := by
  by_cases hm : t ∈ columns
  · obtain ⟨h1, h2, _⟩ := indexOfHash_of_mem hm
    rw [if_neg h1, if_neg h1]
    exact h2
  · rw [if_pos (indexOfHash_of_not_mem hm), if_pos (indexOfHash_of_not_mem hm)]
    simp

/-- The cells pipeline of `Render` for a merge commit: an all-`"|"` row of
`postLen` cells, the node glyph at `idx`, branch glyphs at `idx+1 .. idx+k-1`. -/
theorem cells_count (idx postLen k : Nat) (hk : 2 ≤ k) (hb : idx + k - 1 < postLen) :
    (markBranches
      (setCellCh ((List.range postLen).map (fun i => ({ ch := "|", color := i } : GraphCell)))
        idx "*") idx 1 k).countP (fun c => c.ch == "\\") = k - 1 := by
  have hget0 : ∀ j, j < postLen →
      ((List.range postLen).map (fun i => ({ ch := "|", color := i } : GraphCell))).get? j
        = some { ch := "|", color := j } := by
    intro j hj
    rw [List.get?_map, List.get?_range hj]
    rfl
  have hidx : idx < postLen := by omega
  have hcount0 : ((List.range postLen).map
      (fun i => ({ ch := "|", color := i } : GraphCell))).countP (fun c => c.ch == "\\") = 0 := by
    rw [List.countP_eq_zero]
    intro a ha
    obtain ⟨i, _, rfl⟩ := List.mem_map.mp ha
    show ¬ (("|" : String) == "\\") = true
    decide
  have hcountStar : (setCellCh ((List.range postLen).map
      (fun i => ({ ch := "|", color := i } : GraphCell))) idx "*").countP
        (fun c => c.ch == "\\") = 0 := by
    have h := countP_setCellCh "*" (hget0 idx hidx)
    simp only [hcount0] at h
    simpa using h
  have hmark := markBranches_countP idx (k - 1) 1 k
    (setCellCh ((List.range postLen).map (fun i => ({ ch := "|", color := i } : GraphCell)))
      idx "*") (by omega) ?_
  · rw [hmark, hcountStar]
    omega
  · intro j hj1 hj2
    refine ⟨{ ch := "|", color := idx + j }, ?_, show ("|" : String) ≠ "\\" by decide⟩
    rw [get?_setCellCh_ne _ (by omega)]
    exact hget0 (idx + j) (by omega)

/-- C1, first half (holds unconditionally): a merge row carries exactly
`k - 1` branch-opening glyphs. -/
theorem render_merge_glyphs (columns : List String) (c : Commit)
    (hk : 2 ≤ c.parents.length) :
    countBranchGlyphs (render columns c).1 = c.parents.length - 1 := by
  have hidx := render_idx_lt columns c.hash
  have hk1 : c.parents.length > 1 := hk
  simp only [render, if_pos hk1]
  rw [if_pos (by simpa using (by omega :
    (if indexOfHash columns c.hash = -1 then 0 else (indexOfHash columns c.hash).toNat) <
      (if indexOfHash columns c.hash = -1 then c.hash :: columns else columns).length
        + (c.parents.length - 1)))]
  exact cells_count _ _ _ hk (by omega)

/-- C1, second half (amended): when the merge commit's hash is already an
open column and the final dedupe removes nothing, the column state grows by
exactly `k - 1`. -/
theorem render_merge_growth (columns : List String) (c : Commit)
    (hk : 2 ≤ c.parents.length) (hmem : c.hash ∈ columns)
    (hnd : (renderPreCols columns c).Nodup) :
    (render columns c).2.length = columns.length + (c.parents.length - 1) := by
  have h2 : (render columns c).2 = dedupeHashes (renderPreCols columns c) := rfl
  rw [h2, dedupeHashes_of_nodup hnd]
  obtain ⟨h1, hlt, _⟩ := indexOfHash_of_mem hmem
  obtain ⟨p0, rest, hp⟩ : ∃ p0 rest, c.parents = p0 :: rest := by
    cases hcp : c.parents with
    | nil => rw [hcp] at hk; simp at hk
    | cons p0 rest => exact ⟨p0, rest, rfl⟩
  simp only [renderPreCols, if_neg h1, hp, updateColumns]
  have hset : (columns.set ((indexOfHash columns c.hash).toNat) p0).length = columns.length := by
    simp
  rw [insertParents_length rest _ _ 1 (by omega), hset]
  simp [List.length_cons]

/-- The claim of C1 as stated is false: rendering a 2-parent merge commit
whose second parent is already an open column leaves the column state at
its old length (the final dedupe removes the duplicate), and rendering a
2-parent merge commit that is not yet an open column (a merge at a tip)
grows the column state by 2, not 1. -/
theorem render_merge_growth_cex :
    ¬ ((render ["m", "b"]
        { hash := "m", parents := ["a", "b"], author := "u", message := "s", whenT := 0 }).2.length
      = ["m", "b"].length +
        (({ hash := "m", parents := ["a", "b"], author := "u", message := "s",
            whenT := 0 } : Commit).parents.length - 1)) ∧
    ¬ ((render []
        { hash := "m", parents := ["a", "b"], author := "u", message := "s", whenT := 0 }).2.length
      = ([] : List String).length +
        (({ hash := "m", parents := ["a", "b"], author := "u", message := "s",
            whenT := 0 } : Commit).parents.length - 1)) := by
  constructor <;> decide

/-- C1 (amended), in one statement: the rendered row of a `k`-parent merge
(`k ≥ 2`) always carries exactly `k-1` branch-opening glyphs; the column
state grows by exactly `k-1` provided the commit's hash was already an
open column and the post-update column list is duplicate-free (otherwise
the prepend of step 1 or the dedupe of step 5 changes the balance). -/
theorem merge_render_glyphs_and_growth (columns : List String) (c : Commit)
    (hk : 2 ≤ c.parents.length) :
    countBranchGlyphs (render columns c).1 = c.parents.length - 1 ∧
    (c.hash ∈ columns → (renderPreCols columns c).Nodup →
      (render columns c).2.length = columns.length + (c.parents.length - 1)) :=
  ⟨render_merge_glyphs columns c hk, fun hmem hnd => render_merge_growth columns c hk hmem hnd⟩

theorem merge_render_glyphs_and_growth_witness :
    countBranchGlyphs (render ["m", "x"]
      { hash := "m", parents := ["a", "b"], author := "u", message := "s", whenT := 0 }).1 = 1 ∧
    (render ["m", "x"]
      { hash := "m", parents := ["a", "b"], author := "u", message := "s", whenT := 0 }).2.length
      = 3 := by
  have h := merge_render_glyphs_and_growth ["m", "x"]
    { hash := "m", parents := ["a", "b"], author := "u", message := "s", whenT := 0 }
    (by decide)
  exact ⟨h.1, (h.2 (by decide) (by decide)).trans (by decide)⟩

/-- The claim of C2 as stated is false: rendering a root commit whose hash
is not an open column first prepends its column and then removes it, so
the column state length is unchanged (1 before, 1 after), not decreased. -/
theorem root_render_shrink_cex :
    ¬ ((render ["x"]
        { hash := "r", parents := [], author := "u", message := "s", whenT := 0 }).2.length + 1
      = ["x"].length) := by
  decide

/-- C2 (amended): for a root commit over a duplicate-free column state, the
column state shrinks by exactly 1 when the commit's hash is an open column;
when it is not (a root that is also a tip), the prepended column is removed
again and the length is unchanged. -/
theorem root_render_shrink (columns : List String) (c : Commit)
    (hp : c.parents = []) (hnd : columns.Nodup) :
    (c.hash ∈ columns → (render columns c).2.length + 1 = columns.length) ∧
    (c.hash ∉ columns → (render columns c).2.length = columns.length) := by
  have h2 : (render columns c).2 = dedupeHashes (renderPreCols columns c) := rfl
  constructor
  · intro hmem
    obtain ⟨h1, hlt, _⟩ := indexOfHash_of_mem hmem
    have hpre : renderPreCols columns c
        = columns.eraseIdx (indexOfHash columns c.hash).toNat := by
      simp only [renderPreCols, if_neg h1, hp, updateColumns]
    have hnd2 : (columns.eraseIdx (indexOfHash columns c.hash).toNat).Nodup :=
      hnd.sublist (List.eraseIdx_sublist columns _)
    rw [h2, hpre, dedupeHashes_of_nodup hnd2, List.length_eraseIdx_add_one hlt]
  · intro hmem
    have h1 := indexOfHash_of_not_mem hmem
    have hpre : renderPreCols columns c = columns := by
      simp only [renderPreCols, if_pos h1, hp, updateColumns, List.eraseIdx_cons_zero]
    rw [h2, hpre, dedupeHashes_of_nodup hnd]

theorem root_render_shrink_witness :
    (render ["r", "x"]
      { hash := "r", parents := [], author := "u", message := "s", whenT := 0 }).2.length + 1
      = ["r", "x"].length :=
  (root_render_shrink ["r", "x"]
    { hash := "r", parents := [], author := "u", message := "s", whenT := 0 }
    rfl (by decide)).1 (by decide)

/-! ## The frontier order (C3) -/

theorem commitLess_iff {a b : Commit} :
    commitLess a b = true ↔ b.whenT < a.whenT ∨ (a.whenT = b.whenT ∧ b.hash < a.hash) := by
  rw [commitLess]
  split_ifs with h
  · simp [h]
  · simp [h]

theorem commitLess_irrefl (a : Commit) : commitLess a a = false := by
  rw [← Bool.not_eq_true, commitLess_iff]
  simp

theorem commitLess_asymm {a b : Commit} (h : commitLess a b = true) :
    commitLess b a = false := by
  rw [← Bool.not_eq_true, commitLess_iff]
  rw [commitLess_iff] at h
  rcases h with h | ⟨h1, h2⟩
  · rintro (h' | ⟨h1', h2'⟩) <;> omega
  · rintro (h' | ⟨h1', h2'⟩)
    · omega
    · exact absurd h2 (lt_asymm h2')

theorem commitLess_trans {a b c : Commit} (h1 : commitLess a b = true)
    (h2 : commitLess b c = true) : commitLess a c = true := by
  rw [commitLess_iff] at h1 h2 ⊢
  rcases h1 with h1 | ⟨h1, h1'⟩ <;> rcases h2 with h2 | ⟨h2, h2'⟩
  · left; omega
  · left; omega
  · left; omega
  · right; exact ⟨by omega, lt_trans h2' h1'⟩

theorem commitLess_of_not_lt_of_lt {d c m : Commit} (h1 : commitLess d c = false)
    (h2 : commitLess d m = true) : commitLess c m = true := by
  rw [← Bool.not_eq_true, commitLess_iff] at h1
  rw [commitLess_iff] at h2 ⊢
  push_neg at h1
  obtain ⟨h1a, h1b⟩ := h1
  rcases h2 with h2 | ⟨h2, h2'⟩
  · left; omega
  · rcases eq_or_lt_of_le h1a with hdc | hdc
    · right
      refine ⟨by omega, lt_of_lt_of_le h2' ?_⟩
      exact h1b (by omega)
    · left; omega

theorem commitLess_total {a b : Commit} (hne : a.hash ≠ b.hash) :
    commitLess a b = true ∨ commitLess b a = true := by
  rw [commitLess_iff, commitLess_iff]
  rcases lt_trichotomy a.whenT b.whenT with hw | hw | hw
  · right; left; omega
  · rcases lt_trichotomy a.hash b.hash with hh | hh | hh
    · right; right; exact ⟨hw.symm, hh⟩
    · exact absurd hh hne
    · left; right; exact ⟨hw, hh⟩
  · left; left; omega

theorem heapMin_mem : ∀ (l : List Commit) (c : Commit), heapMin c l ∈ c :: l := by
  intro l
  induction l with
  | nil => intro c; simp [heapMin]
  | cons d t ih =>
    intro c
    rw [heapMin]
    by_cases hdc : commitLess d c
    · rw [if_pos hdc]
      have h := ih d
      simp only [List.mem_cons] at h ⊢
      tauto
    · rw [if_neg hdc]
      have h := ih c
      simp only [List.mem_cons] at h ⊢
      tauto

theorem heapMin_not_lt : ∀ (l : List Commit) (c x : Commit), x ∈ c :: l →
    commitLess x (heapMin c l) = false := by
  intro l
  induction l with
  | nil =>
    intro c x hx
    simp only [List.mem_cons, List.not_mem_nil, or_false] at hx
    rw [hx]
    exact commitLess_irrefl c
  | cons d t ih =>
    intro c x hx
    rw [heapMin]
    by_cases hdc : commitLess d c
    · rw [if_pos hdc]
      rcases List.mem_cons.mp hx with heq | hx'
      · rw [heq]
        by_contra hlt
        rw [Bool.not_eq_false] at hlt
        have hd : commitLess d (heapMin d t) = false := ih d d (by simp)
        have hdt : commitLess d (heapMin d t) = true := commitLess_trans hdc hlt
        rw [hdt] at hd
        exact Bool.true_eq_false.mp hd
      · exact ih d x hx'
    · rw [if_neg hdc]
      rcases List.mem_cons.mp hx with heq | hx'
      · rw [heq]
        exact ih c c (by simp)
      · rcases List.mem_cons.mp hx' with heq | hx''
        · rw [heq]
          by_contra hlt
          rw [Bool.not_eq_false] at hlt
          have hc : commitLess c (heapMin c t) = false := ih c c (by simp)
          have hdcf : commitLess d c = false := by
            rw [← Bool.not_eq_true]; exact hdc
          have hct : commitLess c (heapMin c t) = true :=
            commitLess_of_not_lt_of_lt hdcf hlt
          rw [hct] at hc
          exact Bool.true_eq_false.mp hc
        · exact ih c x (by simp [hx''])

theorem removeFirst_cons_self (rest : List Commit) (m : Commit) :
    removeFirst (m :: rest) m = rest := by
  simp [removeFirst]

theorem removeFirst_cons_ne {c m : Commit} (rest : List Commit) (h : c ≠ m) :
    removeFirst (c :: rest) m = c :: removeFirst rest m := by
  simp [removeFirst, h]

theorem removeFirst_perm : ∀ (l : List Commit) (m : Commit), m ∈ l →
    l.Perm (m :: removeFirst l m) := by
  intro l
  induction l with
  | nil => intro m hm; simp at hm
  | cons c rest ih =>
    intro m hm
    by_cases hc : c = m
    · subst hc
      rw [removeFirst_cons_self]
    · rw [removeFirst_cons_ne _ hc]
      have hm' : m ∈ rest := by
        rcases List.mem_cons.mp hm with h | h
        · exact absurd h.symm hc
        · exact h
      exact ((ih m hm').cons c).trans (List.Perm.swap m c _)

theorem removeFirst_length {l : List Commit} {m : Commit} (hm : m ∈ l) :
    (removeFirst l m).length + 1 = l.length := by
  have h := (removeFirst_perm l m hm).length_eq
  simpa using h.symm

theorem removeFirst_sublist : ∀ (l : List Commit) (m : Commit),
    (removeFirst l m).Sublist l := by
  intro l
  induction l with
  | nil => intro m; simp [removeFirst]
  | cons c rest ih =>
    intro m
    by_cases hc : c = m
    · subst hc
      rw [removeFirst_cons_self]
      exact List.sublist_cons_self c rest
    · rw [removeFirst_cons_ne _ hc]
      exact (ih m).cons₂ c

theorem perm_removeFirst (m : Commit) : ∀ {l l' : List Commit}, l.Perm l' →
    (removeFirst l m).Perm (removeFirst l' m) := by
  intro l l' h
  induction h with
  | nil => exact List.Perm.refl _
  | cons x h ih =>
    by_cases hx : x = m
    · rw [hx, removeFirst_cons_self, removeFirst_cons_self]
      exact h
    · rw [removeFirst_cons_ne _ hx, removeFirst_cons_ne _ hx]
      exact ih.cons x
  | swap x y t =>
    by_cases hy : y = m
    · by_cases hx : x = m
      · rw [hy, hx]
      · rw [hy, removeFirst_cons_self, removeFirst_cons_ne _ hx, removeFirst_cons_self]
    · by_cases hx : x = m
      · rw [hx, removeFirst_cons_ne _ hy, removeFirst_cons_self, removeFirst_cons_self]
      · rw [removeFirst_cons_ne _ hy, removeFirst_cons_ne _ hx,
          removeFirst_cons_ne _ hx, removeFirst_cons_ne _ hy]
        exact List.Perm.swap x y _
  | trans h1 h2 ih1 ih2 => exact ih1.trans ih2

theorem heapPopMin_none_iff {l : List Commit} : heapPopMin l = none ↔ l = [] := by
  cases l <;> simp [heapPopMin]

theorem heapPopMin_spec {l : List Commit} {m : Commit} {rest : List Commit}
    (h : heapPopMin l = some (m, rest)) :
    m ∈ l ∧ rest = removeFirst l m ∧ ∀ x ∈ l, commitLess x m = false := by
  cases l with
  | nil => simp [heapPopMin] at h
  | cons c t =>
    simp only [heapPopMin, Option.some_inj, Prod.mk.injEq] at h
    obtain ⟨hm, hr⟩ := h
    exact ⟨hm ▸ heapMin_mem t c, hr.symm.trans (by rw [hm]),
      fun x hx => hm ▸ heapMin_not_lt t c x hx⟩

theorem min_unique {l : List Commit} (hnd : l.Pairwise (fun a b => a.hash ≠ b.hash))
    {m1 m2 : Commit} (h1m : m1 ∈ l) (h2m : m2 ∈ l)
    (h1 : ∀ x ∈ l, commitLess x m1 = false) (h2 : ∀ x ∈ l, commitLess x m2 = false) :
    m1 = m2 := by
  by_contra hne
  have hsymm : Symmetric (fun a b : Commit => a.hash ≠ b.hash) := fun a b h => h.symm
  have hhash : m1.hash ≠ m2.hash := hnd.forall hsymm h1m h2m hne
  rcases commitLess_total hhash with h | h
  · rw [h2 m1 h1m] at h; exact Bool.true_eq_false.mp h.symm
  · rw [h1 m2 h2m] at h; exact Bool.true_eq_false.mp h.symm

theorem hashNodup_of_pairwise {l : List Commit}
    (hnd : l.Pairwise (fun a b => a.hash ≠ b.hash)) : l.Nodup :=
  hnd.imp (fun h heq => h (congrArg Commit.hash heq))

theorem popOrderFuel_perm : ∀ (fuel : Nat) (l : List Commit), l.length ≤ fuel →
    (popOrderFuel fuel l).Perm l := by
  intro fuel
  induction fuel with
  | zero =>
    intro l h
    have hl : l = [] := List.length_eq_zero.mp (Nat.le_zero.mp h)
    rw [hl]
    exact List.Perm.refl _
  | succ fuel ih =>
    intro l h
    cases hp : heapPopMin l with
    | none =>
      rw [heapPopMin_none_iff.mp hp]
      simp [popOrderFuel, heapPopMin]
    | some pr =>
      obtain ⟨m, rest⟩ := pr
      obtain ⟨hm, hrest, _⟩ := heapPopMin_spec hp
      have hlen : rest.length + 1 = l.length := hrest ▸ removeFirst_length hm
      rw [popOrderFuel, hp]
      have hperm := ih rest (by omega)
      exact (hperm.cons m).trans (hrest ▸ (removeFirst_perm l m hm).symm)

theorem popOrderFuel_sorted : ∀ (fuel : Nat) (l : List Commit), l.length ≤ fuel →
    l.Pairwise (fun a b => a.hash ≠ b.hash) →
    (popOrderFuel fuel l).Pairwise (fun a b => commitLess a b = true) := by
  intro fuel
  induction fuel with
  | zero => intro l _ _; exact List.Pairwise.nil
  | succ fuel ih =>
    intro l h hnd
    cases hp : heapPopMin l with
    | none => rw [popOrderFuel, hp]; exact List.Pairwise.nil
    | some pr =>
      obtain ⟨m, rest⟩ := pr
      obtain ⟨hm, hrest, hmin⟩ := heapPopMin_spec hp
      have hlen : rest.length + 1 = l.length := hrest ▸ removeFirst_length hm
      have hsub : rest.Sublist l := hrest ▸ removeFirst_sublist l m
      have hndrest : rest.Pairwise (fun a b => a.hash ≠ b.hash) := hnd.sublist hsub
      have hndl : l.Nodup := hashNodup_of_pairwise hnd
      have hmrest : m ∉ rest := by
        have hperm := hrest ▸ removeFirst_perm l m hm
        have : (m :: rest).Nodup := hperm.nodup_iff.mp hndl
        exact (List.nodup_cons.mp this).1
      rw [popOrderFuel, hp]
      refine List.Pairwise.cons ?_ (ih rest (by omega) hndrest)
      intro y hy
      have hyrest : y ∈ rest := (popOrderFuel_perm fuel rest (by omega)).mem_iff.mp hy
      have hyl : y ∈ l := hsub.mem hyrest
      have hne : y ≠ m := fun he => hmrest (he ▸ hyrest)
      have hsymm : Symmetric (fun a b : Commit => a.hash ≠ b.hash) := fun a b h => h.symm
      have hhash : m.hash ≠ y.hash := hnd.forall hsymm hm hyl hne.symm
      rcases commitLess_total hhash with hmy | hym
      · exact hmy
      · rw [hmin y hyl] at hym
        exact absurd hym (by simp)

theorem popOrderFuel_eq_of_perm : ∀ (fuel : Nat) (l l' : List Commit), l.length ≤ fuel →
    l.Pairwise (fun a b => a.hash ≠ b.hash) → l.Perm l' →
    popOrderFuel fuel l = popOrderFuel fuel l' := by
  intro fuel
  induction fuel with
  | zero => intro l l' _ _ _; rfl
  | succ fuel ih =>
    intro l l' h hnd hperm
    cases hp : heapPopMin l with
    | none =>
      have hl : l = [] := heapPopMin_none_iff.mp hp
      subst hl
      rw [hperm.symm.eq_nil]
    | some pr =>
      obtain ⟨m, rest⟩ := pr
      obtain ⟨hm, hrest, hmin⟩ := heapPopMin_spec hp
      cases hp' : heapPopMin l' with
      | none =>
        have hl' : l' = [] := heapPopMin_none_iff.mp hp'
        subst hl'
        exact absurd (hperm.mem_iff.mp hm) (List.not_mem_nil m)
      | some pr' =>
        obtain ⟨m', rest'⟩ := pr'
        obtain ⟨hm', hrest', hmin'⟩ := heapPopMin_spec hp'
        have hm'l : m' ∈ l := hperm.mem_iff.mpr hm'
        have hminl : ∀ x ∈ l, commitLess x m' = false := fun x hx =>
          hmin' x (hperm.mem_iff.mp hx)
        have heqm : m = m' := min_unique hnd hm hm'l hmin hminl
        have hlen : rest.length + 1 = l.length := hrest ▸ removeFirst_length hm
        have hndrest : rest.Pairwise (fun a b => a.hash ≠ b.hash) :=
          hnd.sublist (hrest ▸ removeFirst_sublist l m)
        have hrr : rest.Perm rest' := by
          rw [hrest, hrest', ← heqm]
          exact perm_removeFirst m hperm
        simp only [popOrderFuel, hp, hp']
        rw [heqm, ih rest rest' (by omega) hndrest hrr]

theorem sublist_pair_of_pairwise {R : Commit → Commit → Prop} :
    ∀ {l : List Commit} {a b : Commit}, l.Pairwise R → a ∈ l → b ∈ l → ¬ R b a → a ≠ b →
      [a, b].Sublist l := by
  intro l
  induction l with
  | nil => intro a b _ ha _ _ _; simp at ha
  | cons c t ih =>
    intro a b hpw ha hb hnr hne
    rw [List.pairwise_cons] at hpw
    rcases List.mem_cons.mp ha with heqa | hat
    · rcases List.mem_cons.mp hb with heqb | hbt
      · exact absurd (heqb.trans heqa.symm).symm hne
      · rw [heqa]
        exact (List.singleton_sublist.mpr hbt).cons₂ c
    · rcases List.mem_cons.mp hb with heqb | hbt
      · exact absurd (heqb ▸ hpw.1 a hat) hnr
      · exact (ih hpw.2 hat hbt hnr hne).cons c

/-- C3: over a frontier whose commits have pairwise distinct hashes (the
seen-set invariant), (i) a commit with the same timestamp as, and a
lexicographically greater hash string than, another is emitted earlier in
the pop order; (ii) the pop order depends only on the multiset of frontier
contents, not on push (discovery) order; (iii) the pop order is sorted by
timestamp descending, then hash descending; and (iv) a single pop never
returns `b` while such an `a` is in the heap. -/
theorem heap_pop_order_deterministic (l l' : List Commit) (a b : Commit)
    (hnd : l.Pairwise (fun x y => x.hash ≠ y.hash))
    (hperm : l.Perm l') (ha : a ∈ l) (hb : b ∈ l)
    (hw : a.whenT = b.whenT) (hh : b.hash < a.hash) :
    [a, b].Sublist (popOrder l) ∧ popOrder l = popOrder l' ∧
      (popOrder l).Pairwise (fun x y => commitLess x y = true) ∧
      (∀ (hp : List Commit) (m : Commit) (rest : List Commit),
        a ∈ hp → b ∈ hp → heapPopMin hp = some (m, rest) → m ≠ b) := by
  have hab : commitLess a b = true := by
    rw [commitLess_iff]; right; exact ⟨hw, hh⟩
  have hne : a ≠ b := fun he => absurd (he ▸ hh) (lt_irrefl _)
  have hsorted := popOrderFuel_sorted l.length l le_rfl hnd
  have hperm0 := popOrderFuel_perm l.length l le_rfl
  have hamem : a ∈ popOrder l := hperm0.mem_iff.mpr ha
  have hbmem : b ∈ popOrder l := hperm0.mem_iff.mpr hb
  refine ⟨?_, ?_, hsorted, ?_⟩
  · refine sublist_pair_of_pairwise hsorted hamem hbmem ?_ hne
    rw [commitLess_asymm hab]
    simp
  · have h1 : popOrder l = popOrderFuel l.length l' :=
      popOrderFuel_eq_of_perm l.length l l' le_rfl hnd hperm
    rw [popOrder, popOrder, ← hperm.length_eq]
    exact h1
  · intro hp m rest ham hbm hpop heqb
    obtain ⟨_, _, hmin⟩ := heapPopMin_spec hpop
    have hthis := hmin a ham
    rw [heqb] at hthis
    rw [hab] at hthis
    exact Bool.true_eq_false.mp hthis

theorem heap_pop_order_deterministic_witness :
    [({ hash := "b", parents := [], author := "u", message := "s", whenT := 5 } : Commit),
     ({ hash := "a", parents := [], author := "u", message := "s", whenT := 5 } : Commit)].Sublist
      (popOrder
        ([{ hash := "a", parents := [], author := "u", message := "s", whenT := 5 },
          { hash := "b", parents := [], author := "u", message := "s", whenT := 5 }] :
          List Commit)) :=
  (heap_pop_order_deterministic
    [{ hash := "a", parents := [], author := "u", message := "s", whenT := 5 },
     { hash := "b", parents := [], author := "u", message := "s", whenT := 5 }]
    [{ hash := "b", parents := [], author := "u", message := "s", whenT := 5 },
     { hash := "a", parents := [], author := "u", message := "s", whenT := 5 }]
    { hash := "b", parents := [], author := "u", message := "s", whenT := 5 }
    { hash := "a", parents := [], author := "u", message := "s", whenT := 5 }
    (by decide)
    (List.Perm.swap
      ({ hash := "b", parents := [], author := "u", message := "s", whenT := 5 } : Commit)
      ({ hash := "a", parents := [], author := "u", message := "s", whenT := 5 } : Commit) [])
    (by decide) (by decide) rfl
    (by rw [String.lt_iff_toList_lt]; decide)).1

/-! ## Provider lemmas (`HasMore`, `loadNext`, `Ensure`) -/

theorem HasMore_heap_ne {p : Provider} (h : HasMore p = true) : p.heap ≠ [] := by
  intro hh
  simp [HasMore, hh] at h

theorem HasMore_length_lt {p : Provider} (h : HasMore p = true) (hl : p.limit > 0) :
    (p.commits.length : Int) < p.limit := by
  rw [HasMore] at h
  split at h
  · exact absurd h (by simp)
  · rename_i hc
    push_neg at hc
    exact hc hl

theorem loadNext_none_iff {p : Provider} : loadNext p = none ↔ p.heap = [] := by
  constructor
  · intro h
    rcases hhp : heapPopMin p.heap with _ | ⟨m, rest⟩
    · exact heapPopMin_none_iff.mp hhp
    · simp only [loadNext, hhp] at h
      split at h <;> simp at h
  · intro h
    simp [loadNext, heapPopMin, h]

theorem loadNext_some {p p' : Provider} {e : Option String}
    (h : loadNext p = some (p', e)) :
    e = none ∧ p'.commits.length = p.commits.length + 1 ∧
      p'.limit = p.limit ∧ p'.repo = p.repo ∧
      ∃ info, p'.commits = p.commits ++ [info] := by
  rcases hhp : heapPopMin p.heap with _ | ⟨m, rest⟩
  · simp only [loadNext, hhp] at h
    exact Option.noConfusion h
  · simp only [loadNext, hhp] at h
    split at h <;>
    · simp only [Option.some_inj, Prod.mk.injEq] at h
      obtain ⟨hp', he⟩ := h
      subst hp'
      subst he
      exact ⟨rfl, by simp, rfl, rfl, ⟨_, rfl⟩⟩

theorem loadNext_of_heap_ne {p : Provider} (h : p.heap ≠ []) :
    ∃ p', loadNext p = some (p', none) := by
  cases hln : loadNext p with
  | none => exact absurd (loadNext_none_iff.mp hln) h
  | some pr =>
    obtain ⟨p', e⟩ := pr
    obtain ⟨he, -⟩ := loadNext_some hln
    subst he
    exact ⟨p', rfl⟩

theorem ensureLoopFuel_step {fuel : Nat} {p p' : Provider} {index : Int}
    (hc : (p.commits.length : Int) ≤ index ∧ HasMore p = true)
    (hln : loadNext p = some (p', none)) :
    ensureLoopFuel (fuel + 1) p index = ensureLoopFuel fuel p' index := by
  rw [ensureLoopFuel, if_pos hc, hln]

theorem ensureLoopFuel_stop {fuel : Nat} {p : Provider} {index : Int}
    (hc : ¬ ((p.commits.length : Int) ≤ index ∧ HasMore p = true)) :
    ensureLoopFuel fuel p index = (p, none) := by
  cases fuel with
  | zero => rfl
  | succ fuel => rw [ensureLoopFuel, if_neg hc]

theorem ensureLoopFuel_err : ∀ (fuel : Nat) (p : Provider) (index : Int),
    (ensureLoopFuel fuel p index).2 = none := by
  intro fuel
  induction fuel with
  | zero => intro p index; rfl
  | succ fuel ih =>
    intro p index
    by_cases hc : (p.commits.length : Int) ≤ index ∧ HasMore p = true
    · obtain ⟨p', hln⟩ := loadNext_of_heap_ne (HasMore_heap_ne hc.2)
      rw [ensureLoopFuel_step hc hln]
      exact ih p' index
    · rw [ensureLoopFuel_stop hc]

theorem ensureLoopFuel_post : ∀ (fuel : Nat) (p : Provider) (index : Int),
    (index + 1 - (p.commits.length : Int)).toNat ≤ fuel →
    ((ensureLoopFuel fuel p index).1.commits.length : Int) > index ∨
      HasMore (ensureLoopFuel fuel p index).1 = false := by
  intro fuel
  induction fuel with
  | zero =>
    intro p index h
    left
    show (p.commits.length : Int) > index
    omega
  | succ fuel ih =>
    intro p index h
    by_cases hc : (p.commits.length : Int) ≤ index ∧ HasMore p = true
    · obtain ⟨p', hln⟩ := loadNext_of_heap_ne (HasMore_heap_ne hc.2)
      rw [ensureLoopFuel_step hc hln]
      obtain ⟨-, hlen, -, -, -⟩ := loadNext_some hln
      refine ih p' index ?_
      rw [hlen]
      push_cast
      omega
    · rw [ensureLoopFuel_stop hc]
      push_neg at hc
      by_cases h1 : (p.commits.length : Int) ≤ index
      · right
        show HasMore p = false
        rw [← Bool.not_eq_true]
        exact hc h1
      · left
        show (p.commits.length : Int) > index
        omega

theorem ensureLoopFuel_noop : ∀ (fuel : Nat) (p : Provider) (index : Int),
    (p.commits.length : Int) > index → ensureLoopFuel fuel p index = (p, none) := by
  intro fuel p index h
  refine ensureLoopFuel_stop ?_
  rintro ⟨h1, -⟩
  omega

theorem ensureLoopFuel_commits_append : ∀ (fuel : Nat) (p : Provider) (index : Int),
    ∃ t, (ensureLoopFuel fuel p index).1.commits = p.commits ++ t := by
  intro fuel
  induction fuel with
  | zero => intro p index; exact ⟨[], by simp; rfl⟩
  | succ fuel ih =>
    intro p index
    by_cases hc : (p.commits.length : Int) ≤ index ∧ HasMore p = true
    · obtain ⟨p', hln⟩ := loadNext_of_heap_ne (HasMore_heap_ne hc.2)
      rw [ensureLoopFuel_step hc hln]
      obtain ⟨-, -, -, -, info, hinfo⟩ := loadNext_some hln
      obtain ⟨t, ht⟩ := ih p' index
      exact ⟨[info] ++ t, by rw [ht, hinfo, List.append_assoc]⟩
    · rw [ensureLoopFuel_stop hc]
      exact ⟨[], by simp⟩

theorem ensureLoopFuel_limit_repo : ∀ (fuel : Nat) (p : Provider) (index : Int),
    (ensureLoopFuel fuel p index).1.limit = p.limit ∧
      (ensureLoopFuel fuel p index).1.repo = p.repo := by
  intro fuel
  induction fuel with
  | zero => intro p index; exact ⟨rfl, rfl⟩
  | succ fuel ih =>
    intro p index
    by_cases hc : (p.commits.length : Int) ≤ index ∧ HasMore p = true
    · obtain ⟨p', hln⟩ := loadNext_of_heap_ne (HasMore_heap_ne hc.2)
      rw [ensureLoopFuel_step hc hln]
      obtain ⟨-, -, hlim, hrepo, -⟩ := loadNext_some hln
      obtain ⟨h1, h2⟩ := ih p' index
      exact ⟨h1.trans hlim, h2.trans hrepo⟩
    · rw [ensureLoopFuel_stop hc]
      exact ⟨rfl, rfl⟩

theorem ensureLoopFuel_bound : ∀ (fuel : Nat) (p : Provider) (index : Int),
    p.limit > 0 → (p.commits.length : Int) ≤ p.limit →
    ((ensureLoopFuel fuel p index).1.commits.length : Int) ≤ p.limit := by
  intro fuel
  induction fuel with
  | zero => intro p index _ h; exact h
  | succ fuel ih =>
    intro p index hl h
    by_cases hc : (p.commits.length : Int) ≤ index ∧ HasMore p = true
    · obtain ⟨p', hln⟩ := loadNext_of_heap_ne (HasMore_heap_ne hc.2)
      rw [ensureLoopFuel_step hc hln]
      obtain ⟨-, hlen, hlim, -, -⟩ := loadNext_some hln
      have hlt := HasMore_length_lt hc.2 hl
      have := ih p' index (by rw [hlim]; exact hl) (by rw [hlen, hlim]; push_cast; omega)
      rw [hlim] at this
      exact this
    · rw [ensureLoopFuel_stop hc]
      exact h

theorem Ensure_neg {p : Provider} {index : Int} (h : index < 0) :
    Ensure p index = (p, none) := by
  rw [Ensure, if_pos h]

theorem Ensure_fst (p : Provider) (index : Int) (h : 0 ≤ index) :
    (Ensure p index).1.commits
        = (ensureLoopFuel (index + 1 - p.commits.length).toNat p index).1.commits ∧
      (Ensure p index).1.heap
        = (ensureLoopFuel (index + 1 - p.commits.length).toNat p index).1.heap ∧
      (Ensure p index).1.seen
        = (ensureLoopFuel (index + 1 - p.commits.length).toNat p index).1.seen ∧
      (Ensure p index).1.limit
        = (ensureLoopFuel (index + 1 - p.commits.length).toNat p index).1.limit ∧
      (Ensure p index).1.repo
        = (ensureLoopFuel (index + 1 - p.commits.length).toNat p index).1.repo ∧
      (Ensure p index).2 = none := by
  rw [Ensure, if_neg (not_lt.mpr h)]
  have he := ensureLoopFuel_err (index + 1 - p.commits.length).toNat p index
  rcases hq : ensureLoopFuel (index + 1 - p.commits.length).toNat p index with ⟨q, e⟩
  rw [hq] at he
  simp only at he
  subst he
  simp only [hq]
  split <;> exact ⟨rfl, rfl, rfl, rfl, rfl, rfl⟩

theorem HasMore_congr {p q : Provider} (h1 : p.limit = q.limit) (h2 : p.commits = q.commits)
    (h3 : p.heap = q.heap) : HasMore p = HasMore q := by
  rw [HasMore, HasMore, h1, h2, h3]

/-- C9: `Ensure` never fails — its error component is `nil` for every
provider state and every index, because `loadNext` (the only error path)
returns `nil` on every path, silently skipping failed parent lookups. -/
theorem ensure_never_fails : ∀ (p : Provider) (index : Int),
    (Ensure p index).2 = none ∧ (loadNext p).elim True (fun pr => pr.2 = none) := by
  intro p index
  constructor
  · by_cases h : index < 0
    · rw [Ensure_neg h]
    · exact (Ensure_fst p index (not_lt.mp h)).2.2.2.2.2
  · cases hln : loadNext p with
    | none => exact trivial
    | some pr =>
      obtain ⟨p', e⟩ := pr
      obtain ⟨he, -⟩ := loadNext_some hln
      simpa [Option.elim] using he

theorem Ensure_bound {p : Provider} (index : Int) (hl : p.limit > 0)
    (hlen : (p.commits.length : Int) ≤ p.limit) :
    ((Ensure p index).1.commits.length : Int) ≤ p.limit ∧
      (Ensure p index).1.limit = p.limit := by
  by_cases h : index < 0
  · rw [Ensure_neg h]
    exact ⟨hlen, rfl⟩
  · obtain ⟨hc, -, -, hlim, -, -⟩ := Ensure_fst p index (not_lt.mp h)
    rw [hc, hlim]
    exact ⟨ensureLoopFuel_bound _ p index hl hlen,
      (ensureLoopFuel_limit_repo _ p index).1⟩

/-- C4: with `limit = 0` the provider is unbounded (`HasMore` is true
exactly when the frontier is non-empty); with `limit = N > 0` no sequence
of `Ensure` calls grows the materialized sequence past `N`, and `HasMore`
is false as soon as the sequence has `N` entries, frontier or not. -/
theorem limit_semantics (p : Provider) (N : Int) :
    (p.limit = 0 → (HasMore p = true ↔ p.heap ≠ [])) ∧
    (0 < N → p.limit = N → (p.commits.length : Int) ≥ N → HasMore p = false) ∧
    (0 < N → p.limit = N → (p.commits.length : Int) ≤ N →
      ∀ idxs : List Int, ((ensureSeq p idxs).commits.length : Int) ≤ N) := by
  refine ⟨?_, ?_, ?_⟩
  · intro hl
    rw [HasMore, if_neg (by rw [hl]; simp)]
    simp [List.length_pos]
  · intro hN hl hlen
    rw [HasMore, if_pos ⟨by omega, by rw [hl]; exact hlen⟩]
  · intro hN hl hlen idxs
    induction idxs generalizing p with
    | nil => exact hlen
    | cons i idxs ih =>
      have hb := Ensure_bound i (p := p) (by omega) (by omega)
      rw [ensureSeq, List.foldl_cons]
      exact ih (Ensure p i).1 (hb.2.trans hl) (by have := hb.1; omega)
      
/-- C5: `Ensure` is a no-op on a negative index; otherwise it returns with
either more than `index` materialized entries or an exhausted traversal;
and it is idempotent — when the sequence already has more than `index`
entries nothing is traversed or appended (sequence, frontier and seen set
are untouched). -/
theorem ensure_contract (p : Provider) (index : Int) :
    (index < 0 → Ensure p index = (p, none)) ∧
    (0 ≤ index → (((Ensure p index).1.commits.length : Int) > index ∨
      HasMore (Ensure p index).1 = false)) ∧
    ((p.commits.length : Int) > index →
      (Ensure p index).1.commits = p.commits ∧ (Ensure p index).1.heap = p.heap ∧
        (Ensure p index).1.seen = p.seen) := by
  refine ⟨fun h => Ensure_neg h, ?_, ?_⟩
  · intro h
    obtain ⟨hc, hh, -, hlim, -, -⟩ := Ensure_fst p index h
    have hpost := ensureLoopFuel_post (index + 1 - p.commits.length).toNat p index (by omega)
    rcases hpost with hpost | hpost
    · left; rw [hc]; exact hpost
    · right
      rw [HasMore_congr hlim hc hh]
      exact hpost
  · intro h
    by_cases hneg : index < 0
    · rw [Ensure_neg hneg]
      exact ⟨rfl, rfl, rfl⟩
    · obtain ⟨hc, hh, hs, -, -, -⟩ := Ensure_fst p index (not_lt.mp hneg)
      rw [hc, hh, hs, ensureLoopFuel_noop _ p index h]
      exact ⟨rfl, rfl, rfl⟩

theorem limit_semantics_witness :
    ((ensureSeq limitedProvider [0, 5]).commits.length : Int) ≤ 1 :=
  (limit_semantics limitedProvider 1).2.2 (by decide) rfl (by decide) [0, 5]

theorem ensure_contract_witness :
    Ensure emptyProvider (-1) = (emptyProvider, none) ∧
      (((Ensure chainProvider 0).1.commits.length : Int) > 0 ∨
        HasMore (Ensure chainProvider 0).1 = false) :=
  ⟨(ensure_contract emptyProvider (-1)).1 (by decide),
   (ensure_contract chainProvider 0).2.1 (by decide)⟩

/-! ## The dedup invariant (C6) -/

theorem pushParents_inv {repo : String → Option Commit} (hrepo : RepoOK repo) :
    ∀ (ps seen : List String) (heap : List Commit) (C : List String),
      (∀ c ∈ heap, c.hash ∈ seen) → (∀ h ∈ C, h ∈ seen) →
      (C ++ heap.map (fun c => c.hash)).Nodup →
      (∀ c ∈ (pushParents repo ps seen heap).2, c.hash ∈ (pushParents repo ps seen heap).1) ∧
      (∀ h ∈ C, h ∈ (pushParents repo ps seen heap).1) ∧
      (C ++ (pushParents repo ps seen heap).2.map (fun c => c.hash)).Nodup := by
  intro ps
  induction ps with
  | nil => intro seen heap C h1 h2 h3; exact ⟨h1, h2, h3⟩
  | cons parent rest ih =>
    intro seen heap C h1 h2 h3
    by_cases hs : parent ∈ seen
    · rw [pushParents, if_pos hs]
      exact ih seen heap C h1 h2 h3
    · rw [pushParents, if_neg hs]
      cases hre : repo parent with
      | none => exact ih seen heap C h1 h2 h3
      | some pc =>
        have hpc : pc.hash = parent := hrepo parent pc hre
        have hnotC : parent ∉ C := fun hin => hs (h2 parent hin)
        have hnotH : parent ∉ heap.map (fun c => c.hash) := by
          intro hin
          obtain ⟨c, hc, hch⟩ := List.mem_map.mp hin
          exact hs (hch ▸ h1 c hc)
        refine ih (parent :: seen) (pc :: heap) C ?_ ?_ ?_
        · intro c hc
          rcases List.mem_cons.mp hc with rfl | hc'
          · rw [hpc]; exact List.mem_cons_self _ _
          · exact List.mem_cons_of_mem _ (h1 c hc')
        · intro h hC
          exact List.mem_cons_of_mem _ (h2 h hC)
        · rw [List.map_cons, hpc]
          refine List.nodup_middle.mpr (List.nodup_cons.mpr ⟨?_, h3⟩)
          intro hmem
          rcases List.mem_append.mp hmem with hmem | hmem
          · exact hnotC hmem
          · exact hnotH hmem

theorem loadNext_inv {p p' : Provider} {e : Option String} (hrepo : RepoOK p.repo)
    (hinv : ProvInv p) (h : loadNext p = some (p', e)) :
    ProvInv p' ∧ p'.repo = p.repo := by
  obtain ⟨hheap, hcomm, hnd⟩ := hinv
  rcases hhp : heapPopMin p.heap with _ | ⟨m, rest⟩
  · simp only [loadNext, hhp] at h
    exact Option.noConfusion h
  · obtain ⟨hm, hrest, -⟩ := heapPopMin_spec hhp
    have hmseen : m.hash ∈ p.seen := hheap m hm
    have hrestsub : rest.Sublist p.heap := hrest ▸ removeFirst_sublist p.heap m
    have hmap : (p.commits ++ [(buildCommitInfo m p.columns).1]).map (fun i => i.hash)
        = p.commits.map (fun i => i.hash) ++ [m.hash] := by
      simp [buildCommitInfo]
    have hndp1 : ((p.commits.map (fun i => i.hash) ++ [m.hash])
        ++ rest.map (fun c => c.hash)).Nodup := by
      have hperm : (p.heap.map (fun c => c.hash)).Perm
          (m.hash :: rest.map (fun c => c.hash)) := by
        have hrp := removeFirst_perm p.heap m hm
        rw [← hrest] at hrp
        exact hrp.map (fun c => c.hash)
      have hperm2 : (p.commits.map (fun i => i.hash) ++ p.heap.map (fun c => c.hash)).Perm
          ((p.commits.map (fun i => i.hash) ++ [m.hash]) ++ rest.map (fun c => c.hash)) := by
        rw [List.append_assoc, List.singleton_append]
        exact hperm.append_left _
      exact hperm2.nodup_iff.mp hnd
    have hcomm1 : ∀ h' ∈ (p.commits ++ [(buildCommitInfo m p.columns).1]).map
        (fun i => i.hash), h' ∈ p.seen := by
      rw [hmap]
      intro h' hh'
      rcases List.mem_append.mp hh' with hh' | hh'
      · exact hcomm h' hh'
      · rw [List.mem_singleton.mp hh']
        exact hmseen
    simp only [loadNext, hhp] at h
    split at h
    · simp only [Option.some_inj, Prod.mk.injEq] at h
      obtain ⟨hp', he⟩ := h
      subst hp'
      refine ⟨⟨?_, ?_, ?_⟩, rfl⟩
      · intro c hc
        exact hheap c (hrestsub.mem hc)
      · exact hcomm1
      · rw [hmap]
        exact hndp1
    · simp only [Option.some_inj, Prod.mk.injEq] at h
      obtain ⟨hp', he⟩ := h
      subst hp'
      have hpp := pushParents_inv hrepo m.parents p.seen rest
        ((p.commits ++ [(buildCommitInfo m p.columns).1]).map (fun i => i.hash))
        (fun c hc => hheap c (hrestsub.mem hc)) hcomm1 (by rw [hmap]; exact hndp1)
      exact ⟨⟨hpp.1, hpp.2.1, hpp.2.2⟩, rfl⟩

theorem ensureLoopFuel_inv : ∀ (fuel : Nat) (p : Provider) (index : Int),
    RepoOK p.repo → ProvInv p →
    ProvInv (ensureLoopFuel fuel p index).1 ∧
      (ensureLoopFuel fuel p index).1.repo = p.repo := by
  intro fuel
  induction fuel with
  | zero => intro p index _ hinv; exact ⟨hinv, rfl⟩
  | succ fuel ih =>
    intro p index hrepo hinv
    by_cases hc : (p.commits.length : Int) ≤ index ∧ HasMore p = true
    · obtain ⟨p', hln⟩ := loadNext_of_heap_ne (HasMore_heap_ne hc.2)
      rw [ensureLoopFuel_step hc hln]
      obtain ⟨hinv', hrepo'⟩ := loadNext_inv hrepo hinv hln
      obtain ⟨h1, h2⟩ := ih p' index (hrepo' ▸ hrepo) hinv'
      exact ⟨h1, h2.trans hrepo'⟩
    · rw [ensureLoopFuel_stop hc]
      exact ⟨hinv, rfl⟩

theorem Ensure_inv {p : Provider} (index : Int) (hrepo : RepoOK p.repo)
    (hinv : ProvInv p) :
    ProvInv (Ensure p index).1 ∧ (Ensure p index).1.repo = p.repo := by
  by_cases h : index < 0
  · rw [Ensure_neg h]
    exact ⟨hinv, rfl⟩
  · obtain ⟨hc, hh, hs, -, hr, -⟩ := Ensure_fst p index (not_lt.mp h)
    obtain ⟨⟨i1, i2, i3⟩, hrep⟩ :=
      ensureLoopFuel_inv (index + 1 - p.commits.length).toNat p index hrepo hinv
    refine ⟨⟨?_, ?_, ?_⟩, hr.trans hrep⟩
    · rw [hh, hs]; exact i1
    · rw [hc, hs]; exact i2
    · rw [hc, hh]; exact i3

theorem ensureSeq_inv : ∀ (idxs : List Int) (p : Provider), RepoOK p.repo → ProvInv p →
    ProvInv (ensureSeq p idxs) ∧ (ensureSeq p idxs).repo = p.repo := by
  intro idxs
  induction idxs with
  | nil => intro p _ hinv; exact ⟨hinv, rfl⟩
  | cons i idxs ih =>
    intro p hrepo hinv
    obtain ⟨hinv', hrepo'⟩ := Ensure_inv i hrepo hinv
    obtain ⟨h1, h2⟩ := ih (Ensure p i).1 (hrepo' ▸ hrepo) hinv'
    rw [ensureSeq, List.foldl_cons]
    exact ⟨h1, h2.trans hrepo'⟩

theorem newProvider_inv {repo : String → Option Commit} {limit : Int}
    {tips : List String} {p : Provider} (hrepo : RepoOK repo)
    (hp : NewCommitProvider repo limit tips = some p) :
    ProvInv p ∧ p.repo = repo := by
  rw [NewCommitProvider] at hp
  split at hp
  · exact Option.noConfusion hp
  · simp only [Option.some_inj] at hp
    subst hp
    have hpp := pushParents_inv hrepo tips [] [] []
      (fun c hc => absurd hc (List.not_mem_nil c))
      (fun h hC => absurd hC (List.not_mem_nil h))
      (by simp)
    refine ⟨⟨hpp.1, ?_, hpp.2.2⟩, rfl⟩
    intro h hh
    simp at hh

/-- C6: over any commit DAG and any sequence of `Ensure` calls on a
freshly constructed provider, no hash appears twice in the materialized
sequence: every hash enters the seen set when pushed and is never pushed
while already seen. -/
theorem materialized_no_duplicate_hashes (repo : String → Option Commit) (limit : Int)
    (tips : List String) (p : Provider) (idxs : List Int)
    (hrepo : RepoOK repo) (hp : NewCommitProvider repo limit tips = some p) :
    ((ensureSeq p idxs).commits.map (fun i => i.hash)).Nodup := by
  obtain ⟨hinv, hrepoeq⟩ := newProvider_inv hrepo hp
  obtain ⟨⟨-, -, hnd⟩, -⟩ := ensureSeq_inv idxs p (hrepoeq ▸ hrepo) hinv
  exact hnd.of_append_left

theorem materialized_no_duplicate_hashes_witness :
    ((ensureSeq chainProvider [0, 1, 1]).commits.map (fun i => i.hash)).Nodup :=
  materialized_no_duplicate_hashes chainRepo 0 ["a"] chainProvider [0, 1, 1]
    (by
      intro h c hc
      rw [chainRepo] at hc
      split_ifs at hc with h1 h2
      · rw [← Option.some_inj.mp hc, h1]
      · rw [← Option.some_inj.mp hc, h2])
    rfl

/-! ## `applyFilter` and whitespace-only queries (C10) -/

theorem trimSpace_of_all_white {s : String}
    (h : s.toList.all Char.isWhitespace = true) : trimSpace s = "" := by
  rw [trimSpace]
  have hd : s.toList.dropWhile Char.isWhitespace = [] := by
    rw [List.dropWhile_eq_nil_iff]
    intro x hx
    exact List.all_eq_true.mp h x hx
  rw [hd]
  rfl

/-- C10: `applyFilter` trims the query, so a whitespace-only query behaves
exactly like `applyFilter("")`: the filtered list, scan cursor, cursor and
offset are reset, the filter stays inactive, and the logical list is the
unfiltered materialized sequence. -/
theorem applyFilter_whitespace (m : TuiModel) (query : String)
    (h : query.toList.all Char.isWhitespace = true) :
    applyFilter m query = applyFilter m "" ∧
    (applyFilter m query).filter = "" ∧ (applyFilter m query).filtered = [] ∧
    (applyFilter m query).filterScanned = 0 ∧ (applyFilter m query).cursor = 0 ∧
    (applyFilter m query).offset = 0 ∧
    listLength (applyFilter m query) = m.provider.commits.length := by
  have htrim : trimSpace query = "" := trimSpace_of_all_white h
  have htrim0 : trimSpace "" = "" := rfl
  have heq : applyFilter m query = applyFilter m "" := by
    rw [applyFilter, applyFilter, htrim, htrim0]
  rw [heq]
  have h0 : applyFilter m "" =
      { m with filter := "", filtered := [], filterScanned := 0,
               cursor := 0, offset := 0 } := by
    rw [applyFilter, htrim0]
    rfl
  rw [h0]
  refine ⟨rfl, rfl, rfl, rfl, rfl, rfl, ?_⟩
  rw [listLength]
  simp

theorem applyFilter_whitespace_witness :
    applyFilter sampleModel "  " = applyFilter sampleModel "" ∧
    (applyFilter sampleModel "  ").filter = "" ∧
    (applyFilter sampleModel "  ").filtered = [] ∧
    (applyFilter sampleModel "  ").filterScanned = 0 ∧
    (applyFilter sampleModel "  ").cursor = 0 ∧
    (applyFilter sampleModel "  ").offset = 0 ∧
    listLength (applyFilter sampleModel "  ") = sampleModel.provider.commits.length :=
  applyFilter_whitespace sampleModel "  " (by decide)

/-! ## The incremental filter scan (C7) -/

theorem range_split {a b : Nat} (h : a ≤ b) :
    List.range a ++ List.range' a (b - a) = List.range b := by
  rw [List.range_eq_range', List.range_eq_range']
  have happ := List.range'_append 0 a (b - a) 1
  simp only [Nat.one_mul, Nat.zero_add] at happ
  rw [happ]
  congr 1
  omega

theorem scanLoop_eq (commits : List CommitInfo) (fl : String) :
    ∀ (d : Nat) (filtered : List Nat) (scanned : Nat),
      commits.length - scanned = d → scanned ≤ commits.length →
      scanLoop commits fl filtered scanned
        = (filtered ++ (List.range' scanned (commits.length - scanned)).filter
            (matchAt commits fl), commits.length) := by
  intro d
  induction d with
  | zero =>
    intro filtered scanned hd hle
    have hns : ¬ scanned < commits.length := by omega
    rw [scanLoop, dif_neg hns, hd]
    simp
    omega
  | succ d ih =>
    intro filtered scanned hd hle
    have hs : scanned < commits.length := by omega
    rw [scanLoop, dif_pos hs]
    rw [ih _ (scanned + 1) (by omega) (by omega)]
    have hma : matchAt commits fl scanned
        = matchesFilter fl (commits.get ⟨scanned, hs⟩) := by
      rw [matchAt, List.get?_eq_get hs]
    have hrange : commits.length - scanned = (commits.length - (scanned + 1)) + 1 := by omega
    rw [hrange, List.range'_succ, List.filter_cons, hma]
    by_cases hm : matchesFilter fl (commits.get ⟨scanned, hs⟩)
    · rw [if_pos (by rw [hm]), if_pos hm]
      simp
    · rw [if_neg (by rw [Bool.not_eq_true] at hm; rw [hm]; simp), if_neg hm]

theorem scanLoop_append (commits : List CommitInfo) (fl : String) :
    ∀ (d : Nat) (filtered : List Nat) (scanned : Nat), commits.length - scanned = d →
      ∃ t, (scanLoop commits fl filtered scanned).1 = filtered ++ t := by
  intro d
  induction d with
  | zero =>
    intro filtered scanned hd
    by_cases hs : scanned < commits.length
    · omega
    · rw [scanLoop, dif_neg hs]
      exact ⟨[], by simp⟩
  | succ d ih =>
    intro filtered scanned hd
    by_cases hs : scanned < commits.length
    · rw [scanLoop, dif_pos hs]
      by_cases hm : matchesFilter fl (commits.get ⟨scanned, hs⟩)
      · rw [if_pos hm]
        obtain ⟨t, ht⟩ := ih (filtered ++ [scanned]) (scanned + 1) (by omega)
        exact ⟨[scanned] ++ t, by rw [ht, List.append_assoc]⟩
      · rw [if_neg hm]
        exact ih filtered (scanned + 1) (by omega)
    · rw [scanLoop, dif_neg hs]
      exact ⟨[], by simp⟩

theorem refreshFilter_fields (m : TuiModel) :
    (refreshFilter m).cursor = m.cursor ∧ (refreshFilter m).offset = m.offset ∧
    (refreshFilter m).filter = m.filter ∧ (refreshFilter m).height = m.height ∧
    (refreshFilter m).chromeH = m.chromeH ∧ (refreshFilter m).provider = m.provider ∧
    ∃ t, (refreshFilter m).filtered = m.filtered ++ t := by
  rw [refreshFilter]
  split
  · exact ⟨rfl, rfl, rfl, rfl, rfl, rfl, [], by simp⟩
  · exact ⟨rfl, rfl, rfl, rfl, rfl, rfl,
      scanLoop_append m.provider.commits (strLower m.filter) _ m.filtered m.filterScanned rfl⟩

theorem refreshFilter_eq {m : TuiModel} (hne : m.filter ≠ "")
    (hsc : m.filterScanned ≤ m.provider.commits.length) :
    (refreshFilter m).filtered = m.filtered ++
      (List.range' m.filterScanned (m.provider.commits.length - m.filterScanned)).filter
        (matchAt m.provider.commits (strLower m.filter)) ∧
    (refreshFilter m).filterScanned = m.provider.commits.length := by
  rw [refreshFilter, if_neg hne]
  rw [scanLoop_eq m.provider.commits (strLower m.filter) _ m.filtered m.filterScanned rfl hsc]
  exact ⟨rfl, rfl⟩

theorem matchAt_append {commits extra : List CommitInfo} {fl : String} {i : Nat}
    (h : i < commits.length) :
    matchAt (commits ++ extra) fl i = matchAt commits fl i := by
  rw [matchAt, matchAt]
  rw [List.get?_eq_getElem?, List.get?_eq_getElem?, List.getElem?_append, if_pos h]

theorem Ensure_commits_append (p : Provider) (index : Int) :
    ∃ t, (Ensure p index).1.commits = p.commits ++ t := by
  by_cases h : index < 0
  · rw [Ensure_neg h]
    exact ⟨[], by simp⟩
  · obtain ⟨hc, -, -, -, -, -⟩ := Ensure_fst p index (not_lt.mp h)
    rw [hc]
    exact ensureLoopFuel_commits_append _ p index

theorem applyFilter_inv (m : TuiModel) (query : String) :
    FilterInv (applyFilter m query) := by
  rw [applyFilter]
  set m1 : TuiModel := { m with filter := trimSpace query, filtered := [], filterScanned := 0, cursor := 0, offset := 0 } with hm1
  by_cases htrim : m1.filter = ""
  · rw [if_pos htrim]
    exact ⟨Nat.zero_le _, fun hne => absurd htrim hne⟩
  · rw [if_neg htrim]
    have hsc0 : m1.filterScanned = 0 := rfl
    have hfl0 : m1.filtered = [] := rfl
    obtain ⟨hf, hsc⟩ := refreshFilter_eq htrim (by rw [hsc0]; exact Nat.zero_le _)
    obtain ⟨-, -, hfil, -, -, hprov, -⟩ := refreshFilter_fields m1
    refine ⟨by rw [hsc, hprov], fun hne2 => ?_⟩
    rw [hf, hsc, hfil, hprov, hfl0, hsc0, Nat.sub_zero, List.nil_append,
      ← List.range_eq_range']

theorem refreshFilter_inv {m : TuiModel} (hinv : FilterInv m) :
    FilterInv (refreshFilter m) := by
  by_cases hne : m.filter = ""
  · rw [refreshFilter, if_pos hne]
    exact hinv
  · obtain ⟨hf, hsc⟩ := refreshFilter_eq hne hinv.1
    obtain ⟨-, -, hfil, -, -, hprov, -⟩ := refreshFilter_fields m
    refine ⟨by rw [hsc, hprov], fun _ => ?_⟩
    rw [hf, hsc, hfil, hprov, hinv.2 hne, ← List.filter_append, range_split hinv.1]

theorem evLoop_inv : ∀ (fuel : Nat) (m : TuiModel) (target : Int),
    FilterInv m → FilterInv (evLoop fuel m target) := by
  intro fuel
  induction fuel with
  | zero => intro m target hinv; exact hinv
  | succ fuel ih =>
    intro m target hinv
    rw [evLoop]
    split
    · refine ih _ target (refreshFilter_inv ?_)
      obtain ⟨t, ht⟩ := Ensure_commits_append m.provider (m.provider.commits.length : Int)
      constructor
      · show m.filterScanned ≤ (Ensure m.provider (m.provider.commits.length : Int)).1.commits.length
        rw [ht]
        have := hinv.1
        simp only [List.length_append]
        omega
      · intro hne
        show m.filtered = (List.range m.filterScanned).filter (matchAt
          (Ensure m.provider (m.provider.commits.length : Int)).1.commits (strLower m.filter))
        rw [hinv.2 hne, ht]
        refine List.filter_congr ?_
        intro i hi
        have hilt : i < m.filterScanned := List.mem_range.mp hi
        have hsc := hinv.1
        exact (matchAt_append (by omega)).symm
    · exact hinv

theorem ensureVisible_inv {m : TuiModel} (fuel : Nat) (hinv : FilterInv m) :
    FilterInv (ensureVisible fuel m) := by
  rw [ensureVisible]
  split
  · exact hinv
  · split
    · obtain ⟨t, ht⟩ := Ensure_commits_append m.provider (m.offset + viewportHeight m + 5)
      refine ⟨?_, ?_⟩
      · show m.filterScanned ≤ (Ensure m.provider (m.offset + viewportHeight m + 5)).1.commits.length
        rw [ht]
        have := hinv.1
        simp only [List.length_append]
        omega
      · intro hne
        rename_i hfe
        exact absurd hfe hne
    · exact evLoop_inv fuel m _ hinv

theorem runOps_filterInv (m : TuiModel) (ops : List FilterOp) (hinv : FilterInv m) :
    FilterInv (runOps m ops) := by
  induction ops generalizing m with
  | nil => exact hinv
  | cons op ops ih =>
    rw [runOps, List.foldl_cons]
    refine ih (stepOp m op) ?_
    cases op with
    | applyQ q => exact applyFilter_inv m q
    | rescan => exact refreshFilter_inv hinv
    | visible fuel => exact ensureVisible_inv fuel hinv

/-- C7: starting from a fresh controller state, after any sequence of
`applyFilter`, rescan and visibility-driven-load operations with a
non-empty active query, the filtered index list is exactly the ascending
list of indices below the scan cursor whose subject or author matches the
query case-insensitively (hence a subsequence of `[0, scanCursor)`), and a
rescan only appends matches drawn from `[scanCursor, len)`. -/
theorem filter_scan_characterization (m : TuiModel) (ops : List FilterOp)
    (hf : m.filter = "") (hl : m.filtered = []) (hs : m.filterScanned = 0) :
    ((runOps m ops).filter ≠ "" →
      (runOps m ops).filtered
        = (List.range (runOps m ops).filterScanned).filter
            (matchAt (runOps m ops).provider.commits (strLower (runOps m ops).filter)) ∧
      (runOps m ops).filterScanned ≤ (runOps m ops).provider.commits.length ∧
      (runOps m ops).filtered.Pairwise (fun i j => i < j) ∧
      (runOps m ops).filtered.Sublist (List.range (runOps m ops).filterScanned)) ∧
    (∀ m2 : TuiModel, m2.filter ≠ "" → m2.filterScanned ≤ m2.provider.commits.length →
      (refreshFilter m2).filtered = m2.filtered ++
        (List.range' m2.filterScanned (m2.provider.commits.length - m2.filterScanned)).filter
          (matchAt m2.provider.commits (strLower m2.filter))) := by
  constructor
  · intro hne
    have hinv0 : FilterInv m := ⟨hs ▸ Nat.zero_le _, fun hne0 => absurd hf hne0⟩
    have hinv := runOps_filterInv m ops hinv0
    refine ⟨hinv.2 hne, hinv.1, ?_, ?_⟩
    · rw [hinv.2 hne]
      exact (List.pairwise_lt_range _).sublist (List.filter_sublist _)
    · rw [hinv.2 hne]
      exact List.filter_sublist _
  · intro m2 hne2 hsc2
    exact (refreshFilter_eq hne2 hsc2).1

theorem filter_scan_characterization_witness :
    (runOps sampleModel [FilterOp.applyQ "fix"]).filtered
      = (List.range (runOps sampleModel [FilterOp.applyQ "fix"]).filterScanned).filter
          (matchAt (runOps sampleModel [FilterOp.applyQ "fix"]).provider.commits
            (strLower (runOps sampleModel [FilterOp.applyQ "fix"]).filter)) :=
  ((filter_scan_characterization sampleModel [FilterOp.applyQ "fix"] rfl rfl rfl).1
    (by decide)).1

/-! ## The cursor/scroll window invariant (C8) -/

theorem viewportHeight_pos (m : TuiModel) : 1 ≤ viewportHeight m := by
  rw [viewportHeight]
  split <;> omega

theorem clamp_spec (v lo hi : Int) (h : lo ≤ hi) :
    lo ≤ clamp v lo hi ∧ clamp v lo hi ≤ hi := by
  rw [clamp]
  split_ifs <;> omega

theorem evLoop_pres : ∀ (fuel : Nat) (m : TuiModel) (target : Int),
    (evLoop fuel m target).cursor = m.cursor ∧ (evLoop fuel m target).offset = m.offset ∧
    (evLoop fuel m target).filter = m.filter ∧ (evLoop fuel m target).height = m.height ∧
    (evLoop fuel m target).chromeH = m.chromeH ∧
    m.filtered.length ≤ (evLoop fuel m target).filtered.length ∧
    m.provider.commits.length ≤ (evLoop fuel m target).provider.commits.length := by
  intro fuel
  induction fuel with
  | zero => intro m target; exact ⟨rfl, rfl, rfl, rfl, rfl, le_rfl, le_rfl⟩
  | succ fuel ih =>
    intro m target
    rw [evLoop]
    split
    · obtain ⟨t, ht⟩ := Ensure_commits_append m.provider (m.provider.commits.length : Int)
      obtain ⟨r1, r2, r3, r4, r5, r6, tf, r7⟩ := refreshFilter_fields
        { m with provider := (Ensure m.provider (m.provider.commits.length : Int)).1 }
      obtain ⟨e1, e2, e3, e4, e5, e6, e7⟩ := ih (refreshFilter
        { m with provider := (Ensure m.provider (m.provider.commits.length : Int)).1 }) target
      refine ⟨e1.trans r1, e2.trans r2, e3.trans r3, e4.trans r4, e5.trans r5, ?_, ?_⟩
      · refine le_trans ?_ e6
        rw [r7]
        simp
      · refine le_trans ?_ e7
        rw [r6]
        show (m.provider.commits.length ≤
          (Ensure m.provider (m.provider.commits.length : Int)).1.commits.length)
        rw [ht]
        simp
    · exact ⟨rfl, rfl, rfl, rfl, rfl, le_rfl, le_rfl⟩

theorem ensureVisible_pres (fuel : Nat) (m : TuiModel) :
    (ensureVisible fuel m).cursor = m.cursor ∧ (ensureVisible fuel m).offset = m.offset ∧
    (ensureVisible fuel m).filter = m.filter ∧ (ensureVisible fuel m).height = m.height ∧
    (ensureVisible fuel m).chromeH = m.chromeH ∧
    listLength m ≤ listLength (ensureVisible fuel m) := by
  rw [ensureVisible]
  split
  · exact ⟨rfl, rfl, rfl, rfl, rfl, le_rfl⟩
  · split
    · rename_i hfe
      obtain ⟨t, ht⟩ := Ensure_commits_append m.provider (m.offset + viewportHeight m + 5)
      refine ⟨rfl, rfl, rfl, rfl, rfl, ?_⟩
      rw [listLength, listLength]
      rw [if_neg (by simpa using hfe), if_neg (by simpa using hfe)]
      show m.provider.commits.length ≤
        (Ensure m.provider (m.offset + viewportHeight m + 5)).1.commits.length
      rw [ht]
      simp
    · obtain ⟨e1, e2, e3, e4, e5, e6, e7⟩ := evLoop_pres fuel m (m.offset + viewportHeight m + 5)
      refine ⟨e1, e2, e3, e4, e5, ?_⟩
      rw [listLength, listLength, e3]
      by_cases hf : m.filter = ""
      · rw [if_neg (by simpa using hf), if_neg (by simpa using hf)]
        exact e7
      · rw [if_pos (by simpa using hf), if_pos (by simpa using hf)]
        exact e6

theorem viewportHeight_ensureVisible (fuel : Nat) (m : TuiModel) :
    viewportHeight (ensureVisible fuel m) = viewportHeight m := by
  obtain ⟨-, -, -, h4, h5, -⟩ := ensureVisible_pres fuel m
  rw [viewportHeight, viewportHeight, h4, h5]

theorem PosInv_ensureVisible {m : TuiModel} (fuel : Nat) (h : PosInv m) :
    PosInv (ensureVisible fuel m) := by
  obtain ⟨e1, e2, -, -, -, e6⟩ := ensureVisible_pres fuel m
  obtain ⟨p1, p2, p3, p4⟩ := h
  refine ⟨?_, ?_, ?_, ?_⟩
  · rw [e1]; exact p1
  · rw [e1]
    omega
  · rw [e1, e2]; exact p3
  · rw [e1, e2, viewportHeight_ensureVisible]
    exact p4


theorem viewportHeight_update (m : TuiModel) (cu off : Int) :
    viewportHeight { m with cursor := cu, offset := off } = viewportHeight m := rfl

theorem listLength_update (m : TuiModel) (cu off : Int) :
    listLength { m with cursor := cu, offset := off } = listLength m := rfl

theorem maxInt_zero (x : Int) : 0 ≤ maxInt 0 x ∧ x ≤ maxInt 0 x := by
  rw [maxInt]
  split_ifs <;> omega

theorem normalizePosition_posInv {m : TuiModel} (h0 : listLength m ≠ 0) :
    PosInv (normalizePosition m) := by
  have hv := viewportHeight_pos m
  have hL : 1 ≤ listLength m := Nat.pos_of_ne_zero h0
  have hL2 : (1 : Int) ≤ (listLength m : Int) := by exact_mod_cast hL
  obtain ⟨hcl1, hcl2⟩ := clamp_spec m.cursor 0 ((listLength m : Int) - 1) (by omega)
  obtain ⟨hm0, -⟩ := maxInt_zero ((listLength m : Int) - viewportHeight m)
  obtain ⟨ho1, ho2⟩ := clamp_spec m.offset 0
    (maxInt 0 ((listLength m : Int) - viewportHeight m)) hm0
  simp only [normalizePosition]
  rw [if_neg (show ¬ ((listLength m : Int) = 0) by omega)]
  simp only [viewportHeight_update, listLength_update]
  split_ifs <;>
    · simp only [PosInv, viewportHeight_update, listLength_update] at *
      omega

theorem moveTail_props (fuel : Nat) (delta : Int) (m3 : TuiModel) :
    (if delta > 0 then
        (if (ensureVisible fuel m3).cursor ≥ (listLength (ensureVisible fuel m3) : Int) - 1 ∧
            HasMore (ensureVisible fuel m3).provider = true then
          ensureVisible fuel (ensureVisible fuel m3)
        else ensureVisible fuel m3)
      else m3).offset = m3.offset ∧
    (PosInv m3 → PosInv (if delta > 0 then
        (if (ensureVisible fuel m3).cursor ≥ (listLength (ensureVisible fuel m3) : Int) - 1 ∧
            HasMore (ensureVisible fuel m3).provider = true then
          ensureVisible fuel (ensureVisible fuel m3)
        else ensureVisible fuel m3)
      else m3)) := by
  by_cases hd : delta > 0
  · rw [if_pos hd]
    obtain ⟨-, e2, -, -, -, -⟩ := ensureVisible_pres fuel m3
    split
    · obtain ⟨-, f2, -, -, -, -⟩ := ensureVisible_pres fuel (ensureVisible fuel m3)
      exact ⟨f2.trans e2, fun h => PosInv_ensureVisible fuel (PosInv_ensureVisible fuel h)⟩
    · exact ⟨e2, fun h => PosInv_ensureVisible fuel h⟩
  · rw [if_neg hd]
    exact ⟨rfl, id⟩

theorem moveCursor_props (fuel : Nat) (m : TuiModel) (delta : Int)
    (h0 : listLength m ≠ 0) :
    PosInv (moveCursor fuel m delta) ∧
    (clamp (m.cursor + delta) 0 ((listLength m : Int) - 1) < m.offset →
      (moveCursor fuel m delta).offset
        = clamp (m.cursor + delta) 0 ((listLength m : Int) - 1)) ∧
    (m.offset ≤ clamp (m.cursor + delta) 0 ((listLength m : Int) - 1) →
     m.offset + viewportHeight m ≤ clamp (m.cursor + delta) 0 ((listLength m : Int) - 1) →
      (moveCursor fuel m delta).offset
        = clamp (m.cursor + delta) 0 ((listLength m : Int) - 1) - viewportHeight m + 1) := by
  have hv := viewportHeight_pos m
  have hL : 1 ≤ listLength m := Nat.pos_of_ne_zero h0
  have hL2 : (1 : Int) ≤ (listLength m : Int) := by exact_mod_cast hL
  obtain ⟨hcl1, hcl2⟩ := clamp_spec (m.cursor + delta) 0 ((listLength m : Int) - 1) (by omega)
  refine ⟨?_, ?_, ?_⟩
  · simp only [moveCursor]
    rw [if_neg h0]
    refine (moveTail_props fuel delta _).2 ?_
    split_ifs <;>
      · simp only [PosInv, viewportHeight_update, listLength_update] at *
        omega
  · intro hble
    simp only [moveCursor]
    rw [if_neg h0]
    rw [(moveTail_props fuel delta _).1]
    split_ifs <;> simp only [viewportHeight_update, listLength_update] at * <;> omega
  · intro hb1 hb2
    simp only [moveCursor]
    rw [if_neg h0]
    rw [(moveTail_props fuel delta _).1]
    split_ifs <;> simp only [viewportHeight_update, listLength_update] at * <;> omega

/-- C8: after a `normalizePosition` (run after every structural change) and
after every `moveCursor` on a non-empty logical list, the cursor lies in
`[0, listLength-1]` and `offset ≤ cursor < offset + viewportHeight`; in
particular a move below the window sets `offset = cursor - viewport + 1`
(cursor is the last visible row) and a move above it sets
`offset = cursor`. -/
theorem cursor_window_invariant (fuel : Nat) (m : TuiModel) (delta : Int)
    (h0 : listLength m ≠ 0) :
    PosInv (normalizePosition m) ∧ PosInv (moveCursor fuel m delta) ∧
    (clamp (m.cursor + delta) 0 ((listLength m : Int) - 1) < m.offset →
      (moveCursor fuel m delta).offset
        = clamp (m.cursor + delta) 0 ((listLength m : Int) - 1)) ∧
    (m.offset ≤ clamp (m.cursor + delta) 0 ((listLength m : Int) - 1) →
     m.offset + viewportHeight m ≤ clamp (m.cursor + delta) 0 ((listLength m : Int) - 1) →
      (moveCursor fuel m delta).offset
        = clamp (m.cursor + delta) 0 ((listLength m : Int) - 1) - viewportHeight m + 1) :=
  ⟨normalizePosition_posInv h0, (moveCursor_props fuel m delta h0).1,
   (moveCursor_props fuel m delta h0).2.1, (moveCursor_props fuel m delta h0).2.2⟩

theorem cursor_window_invariant_witness :
    PosInv (normalizePosition sampleModel) ∧ PosInv (moveCursor 0 sampleModel 1) :=
  ⟨(cursor_window_invariant 0 sampleModel 1 (by decide)).1,
   (cursor_window_invariant 0 sampleModel 1 (by decide)).2.1⟩
